import Mathlib

/-!
# Bus topology with attacker: schedule and post-run metrics

A development over `src/bus-topology.cc` (one `main`).  Two parts of `main`
carry logic:

* the start/stop schedule of the traffic sources (lines 95-100, 113-114);
* the metrics collection and computation after the run (lines 168-206).

## Arithmetic model

* `uint64_t` counters are natural numbers reduced modulo `2^64` after every
  `+=` and after the subtraction `txPackets - rxPackets`.
* A C++ `double` is a value of `Dbl`: a rational, a signed infinity or NaN.
  The special values follow IEEE-754: a non-zero finite value divided by zero
  is an infinity, `0/0`, `inf/inf`, `0*inf` and `inf - inf` are NaN, and NaN
  propagates.  The two zeros `+0.0` and `-0.0` are one value, so a `simTime`
  of `-0.0` is not represented.
* The operations on doubles are given twice.
  - `Binary64.add`, `Binary64.div`, ... return the exact result rounded to the
    nearest binary64 value, ties to even, with overflow to an infinity and
    gradual underflow (`Binary64.round`).  `Binary64.computeReport` and
    `schedule` are the lines of `main` over these operations; the results on
    the schedule (C8), on loss ratio against PDR (C1), on aggregate against
    per-flow throughput (C6) and on the division guards (C9) are stated on
    them.
  - `Dbl.add`, `Dbl.div`, ... return the exact result.  `computeReport` is the
    same lines over these operations.  The results stated on it (C2, C3, C4,
    C5, C7, C10) are about ranges, zeros, the special values of a division by
    zero and the filtering of records, which rounding to nearest keeps.
* `simTime` (parsed from the command line) is a finite `double`, a rational.
-/

namespace BusTopology

/-! ## Doubles -/

/-- A C++ `double`: a finite value, `+inf`/`-inf` (`neg` is the sign bit) or NaN. -/
inductive Dbl where
  | fin (q : ℚ)
  | inf (neg : Bool)
  | nan
deriving DecidableEq

namespace Dbl

/-- Conversion of an unsigned integer to `double`. -/
def ofNat (n : Nat) : Dbl := fin (n : ℚ)

/-- Sign bit of a rational (`true` when negative). -/
def sgn (q : ℚ) : Bool := decide (q < 0)

/-- The operator `+` on doubles. -/
def add : Dbl → Dbl → Dbl
  | fin a, fin b => fin (a + b)
  | fin _, inf s => inf s
  | inf s, fin _ => inf s
  | inf s, inf t => if s = t then inf s else nan
  | nan, _ => nan
  | _, nan => nan

/-- The operator `-` on doubles. -/
def sub : Dbl → Dbl → Dbl
  | fin a, fin b => fin (a - b)
  | fin _, inf s => inf (!s)
  | inf s, fin _ => inf s
  | inf s, inf t => if s = t then nan else inf s
  | nan, _ => nan
  | _, nan => nan

/-- The operator `*` on doubles. -/
def mul : Dbl → Dbl → Dbl
  | fin a, fin b => fin (a * b)
  | fin a, inf s => if a = 0 then nan else inf (xor (sgn a) s)
  | inf s, fin b => if b = 0 then nan else inf (xor s (sgn b))
  | inf s, inf t => inf (xor s t)
  | nan, _ => nan
  | _, nan => nan

/-- The operator `/` on doubles.  A zero divisor gives NaN for a zero
dividend and an infinity otherwise; nothing traps. -/
def div : Dbl → Dbl → Dbl
  | fin a, fin b =>
      if b = 0 then (if a = 0 then nan else inf (sgn a)) else fin (a / b)
  | fin _, inf _ => fin 0
  | inf s, fin b => inf (xor s (sgn b))
  | inf _, inf _ => nan
  | nan, _ => nan
  | _, nan => nan

/-- A double that is neither an infinity nor NaN. -/
def isFinite : Dbl → Bool
  | fin _ => true
  | _ => false

end Dbl

/-! ## Flow records -/

/-- The fields of `FlowMonitor::FlowStats` that `main` reads.  The packet and
byte counters are unsigned machine integers, taken here as naturals (the
general results hold for every natural; concrete inputs stay below `2^32` for
packets and `2^64` for bytes); `delaySum` and `jitterSum` hold the values of
`delaySum.GetSeconds()` and `jitterSum.GetSeconds()`. -/
structure FlowStats where
  txPackets : Nat
  rxPackets : Nat
  txBytes : Nat
  rxBytes : Nat
  delaySum : ℚ
  jitterSum : ℚ
deriving DecidableEq

/-- One entry of the `stats` map together with the destination port that
`classifier->FindFlow(flow.first)` reports for it. -/
structure Flow where
  destinationPort : Nat
  second : FlowStats
deriving DecidableEq

/-- Wrap-around of a `uint64_t`. -/
def u64 (n : Nat) : Nat := n % 2 ^ 64

/-- The variables of `main` updated by the loop over `stats` (lines 168-170). -/
structure Totals where
  txPackets : Nat
  rxPackets : Nat
  txBytes : Nat
  rxBytes : Nat
  totalDelay : Dbl
  totalJitter : Dbl
  perNodeThroughput : List Dbl
deriving DecidableEq

/-- Initial values of the accumulators (lines 168-170). -/
def Totals.init : Totals :=
  { txPackets := 0, rxPackets := 0, txBytes := 0, rxBytes := 0,
    totalDelay := Dbl.fin 0, totalJitter := Dbl.fin 0, perNodeThroughput := [] }

/-- The per-flow throughput of line 177: `(rxBytes * 8.0) / simTime`. -/
def throughput (rxBytes : Nat) (simTime : ℚ) : Dbl :=
  Dbl.div (Dbl.mul (Dbl.ofNat rxBytes) (Dbl.fin 8)) (Dbl.fin simTime)

/-- One iteration of the loop body (lines 174-185). -/
def step (port : Nat) (simTime : ℚ) (a : Totals) (flow : Flow) : Totals :=
  if flow.destinationPort = port then
    { txPackets := u64 (a.txPackets + flow.second.txPackets),
      rxPackets := u64 (a.rxPackets + flow.second.rxPackets),
      txBytes := u64 (a.txBytes + flow.second.txBytes),
      rxBytes := u64 (a.rxBytes + flow.second.rxBytes),
      totalDelay := Dbl.add a.totalDelay (Dbl.fin flow.second.delaySum),
      totalJitter := Dbl.add a.totalJitter (Dbl.fin flow.second.jitterSum),
      perNodeThroughput := a.perNodeThroughput ++ [throughput flow.second.rxBytes simTime] }
  else a

/-- The loop `for (auto &flow : stats)` (lines 172-186), in map order. -/
def accumulate (stats : List Flow) (port : Nat) (simTime : ℚ) : Totals :=
  stats.foldl (step port simTime) Totals.init

/-! ## Derived metrics -/

/-- Line 189: `(rxBytes * 8.0) / simTime`. -/
def aggThroughput (rxBytes : Nat) (simTime : ℚ) : Dbl :=
  Dbl.div (Dbl.mul (Dbl.ofNat rxBytes) (Dbl.fin 8)) (Dbl.fin simTime)

/-- Line 190: `(txPackets > 0) ? (double)rxPackets / txPackets : 0.0`. -/
def pdr (txPackets rxPackets : Nat) : Dbl :=
  if txPackets > 0 then Dbl.div (Dbl.ofNat rxPackets) (Dbl.ofNat txPackets) else Dbl.fin 0

/-- Line 191: `(rxPackets > 0) ? totalDelay / rxPackets : 0.0`. -/
def avgDelay (rxPackets : Nat) (totalDelay : Dbl) : Dbl :=
  if rxPackets > 0 then Dbl.div totalDelay (Dbl.ofNat rxPackets) else Dbl.fin 0

/-- Line 192: `(rxPackets > 0) ? totalJitter / rxPackets : 0.0`. -/
def avgJitter (rxPackets : Nat) (totalJitter : Dbl) : Dbl :=
  if rxPackets > 0 then Dbl.div totalJitter (Dbl.ofNat rxPackets) else Dbl.fin 0

/-- Line 193: `(txPackets > 0) ? (double)(txPackets - rxPackets) / txPackets : 0.0`;
the subtraction is on `uint64_t` and wraps. -/
def lossRatio (txPackets rxPackets : Nat) : Dbl :=
  if txPackets > 0 then
    Dbl.div (Dbl.ofNat (u64 (txPackets + 2 ^ 64 - rxPackets))) (Dbl.ofNat txPackets)
  else Dbl.fin 0

/-- Line 202: `std::accumulate(begin, end, 0.0)`. -/
def sum (xs : List Dbl) : Dbl := xs.foldl Dbl.add (Dbl.fin 0)

/-- Lines 203-204: `sumSq += t * t` over the list, from `0.0`. -/
def sumSq (xs : List Dbl) : Dbl := xs.foldl (fun s t => Dbl.add s (Dbl.mul t t)) (Dbl.fin 0)

/-- Lines 198-206: Jain's index over the per-flow throughputs, `0.0` for an
empty list. -/
def fairness (perNodeThroughput : List Dbl) : Dbl :=
  if perNodeThroughput.isEmpty then Dbl.fin 0
  else
    Dbl.div (Dbl.mul (sum perNodeThroughput) (sum perNodeThroughput))
      (Dbl.mul (Dbl.ofNat perNodeThroughput.length) (sumSq perNodeThroughput))

/-- The ten values printed by lines 210-219. -/
structure MetricsReport where
  aggThroughput : Dbl
  pdr : Dbl
  avgDelay : Dbl
  avgJitter : Dbl
  lossRatio : Dbl
  goodput : Dbl
  energyConsumption : Dbl
  collisions : Nat
  hopCount : Nat
  fairness : Dbl
deriving DecidableEq

/-- Lines 189-206 applied to the accumulated totals. -/
def deriveReport (a : Totals) (simTime : ℚ) : MetricsReport :=
  { aggThroughput := aggThroughput a.rxBytes simTime,
    pdr := pdr a.txPackets a.rxPackets,
    avgDelay := avgDelay a.rxPackets a.totalDelay,
    avgJitter := avgJitter a.rxPackets a.totalJitter,
    lossRatio := lossRatio a.txPackets a.rxPackets,
    goodput := aggThroughput a.rxBytes simTime,
    energyConsumption := Dbl.fin 0,
    collisions := 0,
    hopCount := 1,
    fairness := fairness a.perNodeThroughput }

/-- The metrics part of `main` (lines 168-206): accumulate, then derive. -/
def computeReport (stats : List Flow) (port : Nat) (simTime : ℚ) : MetricsReport :=
  deriveReport (accumulate stats port simTime) simTime

/-! ## Vocabulary used to state properties (not part of the program) -/

/-- The comparison `<=` on doubles (IEEE-754): false whenever a side is NaN. -/
def Dbl.le : Dbl → Dbl → Bool
  | Dbl.fin a, Dbl.fin b => decide (a ≤ b)
  | Dbl.fin _, Dbl.inf s => !s
  | Dbl.inf s, Dbl.fin _ => s
  | Dbl.inf s, Dbl.inf t => s || !t
  | Dbl.nan, _ => false
  | _, Dbl.nan => false

/-- The comparison `<` on doubles (IEEE-754): false whenever a side is NaN. -/
def Dbl.lt : Dbl → Dbl → Bool
  | Dbl.fin a, Dbl.fin b => decide (a < b)
  | Dbl.fin _, Dbl.inf s => !s
  | Dbl.inf s, Dbl.fin _ => s
  | Dbl.inf s, Dbl.inf t => s && !t
  | Dbl.nan, _ => false
  | _, Dbl.nan => false

/-- The flows of `stats` addressed to `port`, in map order. -/
def toPort (stats : List Flow) (port : Nat) : List Flow :=
  stats.filter (fun f => decide (f.destinationPort = port))

/-- The report of a run in which nothing was measured: every value `0`,
hop count `1`. -/
def MetricsReport.blank : MetricsReport :=
  { aggThroughput := Dbl.fin 0, pdr := Dbl.fin 0, avgDelay := Dbl.fin 0,
    avgJitter := Dbl.fin 0, lossRatio := Dbl.fin 0, goodput := Dbl.fin 0,
    energyConsumption := Dbl.fin 0, collisions := 0, hopCount := 1,
    fairness := Dbl.fin 0 }

/-! ## Binary64 semantics

The same lines of `main` with every `double` operation correctly rounded:
the result of an operation is its exact result rounded to the nearest
binary64 value, ties to even, with overflow to an infinity and gradual
underflow.  Only the sign of zero is not represented. -/

namespace Binary64

/-- The power `2^k` for an integer exponent. -/
def pow2 (k : ℤ) : ℚ := (2 : ℚ) ^ k

/-- Nearest integer, ties to the even neighbour. -/
def roundHalfEven (y : ℚ) : ℤ :=
  if y - ⌊y⌋ < 1 / 2 then ⌊y⌋
  else if 1 / 2 < y - ⌊y⌋ then ⌊y⌋ + 1
  else if ⌊y⌋ % 2 = 0 then ⌊y⌋ else ⌊y⌋ + 1

/-- Number of halvings that bring `n` below 2, at most `fuel` of them. -/
def log2Fuel : Nat → Nat → Nat
  | 0, _ => 0
  | fuel + 1, n => if n < 2 then 0 else log2Fuel fuel (n / 2) + 1

/-- Position of the leading bit of `n`: the `k` with `2^k ≤ n < 2^(k+1)`. -/
def ilog2 (n : Nat) : Nat := log2Fuel n n

/-- Binary exponent of a positive `x`: the `e` with `2^e ≤ x < 2^(e+1)`. -/
def expo (x : ℚ) : ℤ :=
  if pow2 ((ilog2 x.num.natAbs : ℤ) - (ilog2 x.den : ℤ)) ≤ x then
    (ilog2 x.num.natAbs : ℤ) - (ilog2 x.den : ℤ)
  else (ilog2 x.num.natAbs : ℤ) - (ilog2 x.den : ℤ) - 1

/-- Spacing of the binary64 values around a positive `x`: 53 significant
bits, and the fixed spacing `2^-1074` below `2^-1022`. -/
def quantum (x : ℚ) : ℚ := pow2 (max (expo x) (-1022) - 52)

/-- Nearest binary64 magnitude to `x ≥ 0`, exponent unbounded above. -/
def roundMag (x : ℚ) : ℚ :=
  if x = 0 then 0 else (roundHalfEven (x / quantum x) : ℚ) * quantum x

/-- Round to nearest, ties to even; a rounded magnitude of `2^1024` or more
overflows to the infinity of the same sign. -/
def round (x : ℚ) : Dbl :=
  if pow2 1024 ≤ roundMag |x| then Dbl.inf (decide (x < 0))
  else Dbl.fin (if x < 0 then -roundMag |x| else roundMag |x|)

/-- Unit roundoff of binary64: half the relative spacing. -/
def eps : ℚ := 1 / 2 ^ 53

/-- Delivery of the exact result of an operation: a finite result is rounded,
an infinity or NaN is passed on. -/
def rnd : Dbl → Dbl
  | Dbl.fin q => round q
  | Dbl.inf s => Dbl.inf s
  | Dbl.nan => Dbl.nan

/-- Conversion of an unsigned integer to `double`. -/
def ofNat (n : Nat) : Dbl := round (n : ℚ)

/-- The operator `+` on doubles. -/
def add (a b : Dbl) : Dbl := rnd (Dbl.add a b)

/-- The operator `-` on doubles. -/
def sub (a b : Dbl) : Dbl := rnd (Dbl.sub a b)

/-- The operator `*` on doubles. -/
def mul (a b : Dbl) : Dbl := rnd (Dbl.mul a b)

/-- The operator `/` on doubles. -/
def div (a b : Dbl) : Dbl := rnd (Dbl.div a b)

/-- The per-flow throughput of line 177: `(rxBytes * 8.0) / simTime`. -/
def throughput (rxBytes : Nat) (simTime : ℚ) : Dbl :=
  div (mul (ofNat rxBytes) (Dbl.fin 8)) (Dbl.fin simTime)

/-- One iteration of the loop body (lines 174-185). -/
def step (port : Nat) (simTime : ℚ) (a : Totals) (flow : Flow) : Totals :=
  if flow.destinationPort = port then
    { txPackets := u64 (a.txPackets + flow.second.txPackets),
      rxPackets := u64 (a.rxPackets + flow.second.rxPackets),
      txBytes := u64 (a.txBytes + flow.second.txBytes),
      rxBytes := u64 (a.rxBytes + flow.second.rxBytes),
      totalDelay := add a.totalDelay (Dbl.fin flow.second.delaySum),
      totalJitter := add a.totalJitter (Dbl.fin flow.second.jitterSum),
      perNodeThroughput := a.perNodeThroughput ++ [throughput flow.second.rxBytes simTime] }
  else a

/-- The loop `for (auto &flow : stats)` (lines 172-186), in map order. -/
def accumulate (stats : List Flow) (port : Nat) (simTime : ℚ) : Totals :=
  stats.foldl (step port simTime) Totals.init

/-- Line 189: `(rxBytes * 8.0) / simTime`. -/
def aggThroughput (rxBytes : Nat) (simTime : ℚ) : Dbl :=
  div (mul (ofNat rxBytes) (Dbl.fin 8)) (Dbl.fin simTime)

/-- Line 190: `(txPackets > 0) ? (double)rxPackets / txPackets : 0.0`. -/
def pdr (txPackets rxPackets : Nat) : Dbl :=
  if txPackets > 0 then div (ofNat rxPackets) (ofNat txPackets) else Dbl.fin 0

/-- Line 191: `(rxPackets > 0) ? totalDelay / rxPackets : 0.0`. -/
def avgDelay (rxPackets : Nat) (totalDelay : Dbl) : Dbl :=
  if rxPackets > 0 then div totalDelay (ofNat rxPackets) else Dbl.fin 0

/-- Line 192: `(rxPackets > 0) ? totalJitter / rxPackets : 0.0`. -/
def avgJitter (rxPackets : Nat) (totalJitter : Dbl) : Dbl :=
  if rxPackets > 0 then div totalJitter (ofNat rxPackets) else Dbl.fin 0

/-- Line 193: `(txPackets > 0) ? (double)(txPackets - rxPackets) / txPackets : 0.0`;
the subtraction is on `uint64_t` and wraps. -/
def lossRatio (txPackets rxPackets : Nat) : Dbl :=
  if txPackets > 0 then
    div (ofNat (u64 (txPackets + 2 ^ 64 - rxPackets))) (ofNat txPackets)
  else Dbl.fin 0

/-- Line 202: `std::accumulate(begin, end, 0.0)`. -/
def sum (xs : List Dbl) : Dbl := xs.foldl add (Dbl.fin 0)

/-- Lines 203-204: `sumSq += t * t` over the list, from `0.0`. -/
def sumSq (xs : List Dbl) : Dbl := xs.foldl (fun s t => add s (mul t t)) (Dbl.fin 0)

/-- Lines 198-206: Jain's index over the per-flow throughputs, `0.0` for an
empty list. -/
def fairness (perNodeThroughput : List Dbl) : Dbl :=
  if perNodeThroughput.isEmpty then Dbl.fin 0
  else
    div (mul (sum perNodeThroughput) (sum perNodeThroughput))
      (mul (ofNat perNodeThroughput.length) (sumSq perNodeThroughput))

/-- Lines 189-206 applied to the accumulated totals. -/
def deriveReport (a : Totals) (simTime : ℚ) : MetricsReport :=
  { aggThroughput := aggThroughput a.rxBytes simTime,
    pdr := pdr a.txPackets a.rxPackets,
    avgDelay := avgDelay a.rxPackets a.totalDelay,
    avgJitter := avgJitter a.rxPackets a.totalJitter,
    lossRatio := lossRatio a.txPackets a.rxPackets,
    goodput := aggThroughput a.rxBytes simTime,
    energyConsumption := Dbl.fin 0,
    collisions := 0,
    hopCount := 1,
    fairness := fairness a.perNodeThroughput }

/-- The metrics part of `main` (lines 168-206): accumulate, then derive. -/
def computeReport (stats : List Flow) (port : Nat) (simTime : ℚ) : MetricsReport :=
  deriveReport (accumulate stats port simTime) simTime

end Binary64

/-! ## Start/stop schedule of the traffic sources -/

/-- An active window `[start, stop)`: the doubles handed to `Seconds` for
`app.Start` and `app.Stop`. -/
structure Window where
  start : Dbl
  stop : Dbl
deriving DecidableEq

/-- Lines 98-99: sensor `i` starts at `1.0 + i * 0.2` and stops at `simTime`;
`i` is a `uint32_t` converted to `double`, `0.2` is the double nearest to 1/5,
and the product and the sum are rounded one after the other. -/
def sensorWindow (i : Nat) (simTime : ℚ) : Window :=
  { start := Binary64.add (Dbl.fin 1)
      (Binary64.mul (Binary64.ofNat i) (Binary64.round (1 / 5))),
    stop := Dbl.fin simTime }

/-- Lines 113-114: the jammer starts at `5.0` and stops at `simTime - 5.0`. -/
def attackerWindow (simTime : ℚ) : Window :=
  { start := Dbl.fin 5, stop := Binary64.sub (Dbl.fin simTime) (Dbl.fin 5) }

/-- Every source window `main` schedules, in program order: the loop of
lines 95-100 over `i = 0 .. nSensors-1`, then the attacker.  `main` has no
branch that refuses a configuration.  The node count `nSensors + 2` of
line 35 is a `uint32_t`: when it wraps, the containers are too short for the
`Get` calls of lines 38-41 and no schedule is given. -/
def schedule (nSensors : Nat) (simTime : ℚ) : Option (List Window) :=
  if nSensors + 2 < 2 ^ 32 then
    some ((List.range nSensors).map (fun i => sensorWindow i simTime) ++
      [attackerWindow simTime])
  else none

/-! ## Lemmas on the accumulation loop -/

theorem step_other (port : Nat) (simTime : ℚ) (a : Totals) (flow : Flow)
    (h : flow.destinationPort ≠ port) : step port simTime a flow = a := by
  simp [step, h]

theorem foldl_step_toPort (port : Nat) (simTime : ℚ) (stats : List Flow) (a : Totals) :
    stats.foldl (step port simTime) a = (toPort stats port).foldl (step port simTime) a := by
  induction stats generalizing a with
  | nil => rfl
  | cons f fs ih =>
    by_cases h : f.destinationPort = port
    · simp only [toPort, List.filter_cons, h, decide_True, if_true, List.foldl_cons] at ih ⊢
      exact ih _
    · simp only [toPort, List.filter_cons, h, decide_False, List.foldl_cons,
        step_other port simTime a f h] at ih ⊢
      simpa [toPort] using ih a

theorem accumulate_toPort (stats : List Flow) (port : Nat) (simTime : ℚ) :
    accumulate stats port simTime = accumulate (toPort stats port) port simTime := by
  unfold accumulate
  have h : toPort (toPort stats port) port = toPort stats port := by
    simp [toPort, List.filter_filter]
  rw [foldl_step_toPort port simTime stats, foldl_step_toPort port simTime (toPort stats port), h]

theorem accumulate_of_no_match (stats : List Flow) (port : Nat) (simTime : ℚ)
    (h : ∀ f ∈ stats, f.destinationPort ≠ port) :
    accumulate stats port simTime = Totals.init := by
  rw [accumulate_toPort]
  have : toPort stats port = [] := by
    simp only [toPort, List.filter_eq_nil_iff, decide_eq_true_eq]
    exact h
  rw [this]; rfl

theorem foldl_step_totalDelay_isFinite (port : Nat) (simTime : ℚ) (stats : List Flow)
    (a : Totals) (h : a.totalDelay.isFinite = true) :
    (stats.foldl (step port simTime) a).totalDelay.isFinite = true := by
  induction stats generalizing a with
  | nil => exact h
  | cons f fs ih =>
    apply ih
    unfold step
    split
    · cases hd : a.totalDelay <;> simp_all [Dbl.add, Dbl.isFinite]
    · exact h

theorem foldl_step_totalJitter_isFinite (port : Nat) (simTime : ℚ) (stats : List Flow)
    (a : Totals) (h : a.totalJitter.isFinite = true) :
    (stats.foldl (step port simTime) a).totalJitter.isFinite = true := by
  induction stats generalizing a with
  | nil => exact h
  | cons f fs ih =>
    apply ih
    unfold step
    split
    · cases hd : a.totalJitter <;> simp_all [Dbl.add, Dbl.isFinite]
    · exact h

theorem div_fin_isFinite_iff (a b : ℚ) :
    (Dbl.div (Dbl.fin a) (Dbl.fin b)).isFinite = true ↔ b ≠ 0 := by
  by_cases hb : b = 0
  · by_cases ha : a = 0 <;> simp [Dbl.div, Dbl.isFinite, ha, hb]
  · simp [Dbl.div, Dbl.isFinite, hb]

theorem div_ofNat_isFinite (x : Dbl) (n : Nat) (hx : x.isFinite = true) (hn : 0 < n) :
    (Dbl.div x (Dbl.ofNat n)).isFinite = true := by
  cases x with
  | fin q =>
    have : (n : ℚ) ≠ 0 := by exact_mod_cast hn.ne'
    simp [Dbl.div, Dbl.ofNat, Dbl.isFinite, this]
  | inf s => simp [Dbl.isFinite] at hx
  | nan => simp [Dbl.isFinite] at hx

theorem avgDelay_isFinite (rx : Nat) (d : Dbl) (hd : d.isFinite = true) :
    (avgDelay rx d).isFinite = true := by
  unfold avgDelay
  split
  · exact div_ofNat_isFinite _ _ hd (by assumption)
  · rfl

theorem avgJitter_isFinite (rx : Nat) (d : Dbl) (hd : d.isFinite = true) :
    (avgJitter rx d).isFinite = true := by
  unfold avgJitter
  split
  · exact div_ofNat_isFinite _ _ hd (by assumption)
  · rfl

theorem foldl_step_rxBytes (port : Nat) (simTime : ℚ) (stats : List Flow) (a : Totals)
    (ha : a.rxBytes < 2 ^ 64) :
    (stats.foldl (step port simTime) a).rxBytes =
      (a.rxBytes + ((toPort stats port).map (fun f => f.second.rxBytes)).sum) % 2 ^ 64 := by
  induction stats generalizing a with
  | nil =>
    simp only [toPort, List.filter_nil, List.map_nil, List.sum_nil, List.foldl_nil, Nat.add_zero]
    exact (Nat.mod_eq_of_lt ha).symm
  | cons f fs ih =>
    rw [List.foldl_cons]
    by_cases h : f.destinationPort = port
    · rw [ih _ (by simp only [step, h, if_true, u64]; exact Nat.mod_lt _ (by norm_num))]
      simp only [step, h, if_true, u64, toPort, List.filter_cons, decide_True, List.map_cons,
        List.sum_cons]
      rw [Nat.add_mod, Nat.mod_mod, ← Nat.add_mod, Nat.add_assoc]
    · rw [step_other port simTime a f h, ih a ha]
      simp [toPort, List.filter_cons, h]

theorem accumulate_rxBytes (stats : List Flow) (port : Nat) (simTime : ℚ) :
    (accumulate stats port simTime).rxBytes =
      u64 ((toPort stats port).map (fun f => f.second.rxBytes)).sum := by
  unfold accumulate
  rw [foldl_step_rxBytes port simTime stats Totals.init (by simp [Totals.init])]
  simp [Totals.init, u64]

/-! ## Lemmas on sums of finite doubles and on Jain's index -/

theorem foldl_add_fin (l : List ℚ) (q : ℚ) :
    (l.map Dbl.fin).foldl Dbl.add (Dbl.fin q) = Dbl.fin (q + l.sum) := by
  induction l generalizing q with
  | nil => simp
  | cons x xs ih =>
    simp only [List.map_cons, List.foldl_cons, Dbl.add, List.sum_cons]
    rw [ih, add_assoc]

theorem sum_map_fin (l : List ℚ) : sum (l.map Dbl.fin) = Dbl.fin l.sum := by
  unfold sum
  rw [foldl_add_fin, zero_add]

theorem foldl_sq_fin (l : List ℚ) (q : ℚ) :
    (l.map Dbl.fin).foldl (fun s t => Dbl.add s (Dbl.mul t t)) (Dbl.fin q) =
      Dbl.fin (q + (l.map (fun x => x * x)).sum) := by
  induction l generalizing q with
  | nil => simp
  | cons x xs ih =>
    simp only [List.map_cons, List.foldl_cons, List.sum_cons]
    rw [show Dbl.add (Dbl.fin q) (Dbl.mul (Dbl.fin x) (Dbl.fin x)) = Dbl.fin (q + x * x) from rfl,
      ih, add_assoc]

theorem sumSq_map_fin (l : List ℚ) :
    sumSq (l.map Dbl.fin) = Dbl.fin (l.map (fun x => x * x)).sum := by
  unfold sumSq
  rw [foldl_sq_fin, zero_add]

theorem sum_sq_shift_nonneg (l : List ℚ) (x : ℚ) :
    0 ≤ (l.map (fun y => y * y)).sum - 2 * x * l.sum + (l.length : ℚ) * (x * x) := by
  induction l with
  | nil => simp
  | cons y ys ih =>
    simp only [List.map_cons, List.sum_cons, List.length_cons, Nat.cast_add, Nat.cast_one]
    nlinarith [sq_nonneg (y - x)]

theorem sq_sum_le_length_mul_sum_sq (l : List ℚ) :
    l.sum * l.sum ≤ (l.length : ℚ) * (l.map (fun y => y * y)).sum := by
  induction l with
  | nil => simp
  | cons y ys ih =>
    simp only [List.map_cons, List.sum_cons, List.length_cons, Nat.cast_add, Nat.cast_one]
    nlinarith [sum_sq_shift_nonneg ys y]

theorem sum_sq_pos (l : List ℚ) (h : ∃ x ∈ l, x ≠ 0) :
    0 < (l.map (fun y => y * y)).sum := by
  induction l with
  | nil => simp at h
  | cons y ys ih =>
    simp only [List.map_cons, List.sum_cons]
    have hnn : 0 ≤ (ys.map (fun y => y * y)).sum := by
      apply List.sum_nonneg
      intro z hz
      simp only [List.mem_map] at hz
      obtain ⟨w, _, rfl⟩ := hz
      exact mul_self_nonneg w
    by_cases hy : y = 0
    · have : ∃ x ∈ ys, x ≠ 0 := by
        obtain ⟨x, hx, hx0⟩ := h
        simp only [List.mem_cons] at hx
        rcases hx with rfl | hx
        · exact absurd hy hx0
        · exact ⟨x, hx, hx0⟩
      have := ih this
      nlinarith [mul_self_nonneg y]
    · have : 0 < y * y := mul_self_pos.mpr hy
      linarith

/-- Jain's index of a list of finite doubles with a non-zero entry is the
finite value `(Σx)² / (n·Σx²)`, which lies in `[0,1]` (exact arithmetic). -/
theorem fairness_map_fin (l : List ℚ) (h : ∃ x ∈ l, x ≠ 0) :
    fairness (l.map Dbl.fin) =
        Dbl.fin (l.sum * l.sum / ((l.length : ℚ) * (l.map (fun y => y * y)).sum)) ∧
      0 ≤ l.sum * l.sum / ((l.length : ℚ) * (l.map (fun y => y * y)).sum) ∧
      l.sum * l.sum / ((l.length : ℚ) * (l.map (fun y => y * y)).sum) ≤ 1 := by
  have hQ := sum_sq_pos l h
  have hne : l ≠ [] := by
    rintro rfl
    simp at h
  have hlen : 0 < (l.length : ℚ) := by
    have : 0 < l.length := List.length_pos.mpr hne
    exact_mod_cast this
  have hden : 0 < (l.length : ℚ) * (l.map (fun y => y * y)).sum := mul_pos hlen hQ
  refine ⟨?_, ?_, ?_⟩
  · unfold fairness
    rw [sum_map_fin, sumSq_map_fin]
    simp [Dbl.div, Dbl.mul, Dbl.ofNat, hne, hden.ne', hlen.ne', hQ.ne']
  · exact div_nonneg (mul_self_nonneg _) hden.le
  · rw [div_le_one hden]
    exact sq_sum_le_length_mul_sum_sq l

/-- Jain's index of `n ≥ 1` copies of the same non-zero finite value is `1`
(exact arithmetic). -/
theorem fairness_replicate (n : Nat) (x : ℚ) (hn : 0 < n) (hx : x ≠ 0) :
    fairness (List.replicate n (Dbl.fin x)) = Dbl.fin 1 := by
  have hmap : List.replicate n (Dbl.fin x) = (List.replicate n x).map Dbl.fin := by simp
  have hex : ∃ y ∈ List.replicate n x, y ≠ 0 :=
    ⟨x, by simp [List.mem_replicate, hn.ne'], hx⟩
  rw [hmap, (fairness_map_fin _ hex).1]
  congr 1
  have hn0 : (n : ℚ) ≠ 0 := by exact_mod_cast hn.ne'
  simp only [List.sum_replicate, List.length_replicate, List.map_replicate, smul_eq_mul,
    nsmul_eq_mul]
  field_simp
  ring

theorem foldl_step_txPackets_lt (port : Nat) (simTime : ℚ) (stats : List Flow) (a : Totals)
    (ha : a.txPackets < 2 ^ 64) :
    (stats.foldl (step port simTime) a).txPackets < 2 ^ 64 := by
  induction stats generalizing a with
  | nil => exact ha
  | cons f fs ih =>
    apply ih
    unfold step
    split
    · exact Nat.mod_lt _ (by norm_num)
    · exact ha

theorem accumulate_txPackets_lt (stats : List Flow) (port : Nat) (simTime : ℚ) :
    (accumulate stats port simTime).txPackets < 2 ^ 64 :=
  foldl_step_txPackets_lt port simTime stats Totals.init (by simp [Totals.init])

theorem accumulate_totalDelay_isFinite (stats : List Flow) (port : Nat) (simTime : ℚ) :
    (accumulate stats port simTime).totalDelay.isFinite = true :=
  foldl_step_totalDelay_isFinite port simTime stats Totals.init rfl

theorem accumulate_totalJitter_isFinite (stats : List Flow) (port : Nat) (simTime : ℚ) :
    (accumulate stats port simTime).totalJitter.isFinite = true :=
  foldl_step_totalJitter_isFinite port simTime stats Totals.init rfl

theorem pdr_of_pos (tx rx : Nat) (htx : 0 < tx) :
    pdr tx rx = Dbl.fin ((rx : ℚ) / (tx : ℚ)) := by
  have h0 : (tx : ℚ) ≠ 0 := by exact_mod_cast htx.ne'
  simp [pdr, htx, Dbl.div, Dbl.ofNat, h0]

/-! ## C2: range of the packet delivery ratio -/

/-- C2, as stated, fails: one flow to the sink port with txPackets = 1 and
rxPackets = 2 gives pdr = 2, which is not at most 1. -/
theorem pdr_gt_one_of_rx_gt_tx :
    (computeReport [⟨50000, ⟨1, 2, 64, 128, 0, 0⟩⟩] 50000 60).pdr = Dbl.fin 2 ∧
      ¬ (Dbl.le (Dbl.fin 0) (computeReport [⟨50000, ⟨1, 2, 64, 128, 0, 0⟩⟩] 50000 60).pdr = true ∧
        Dbl.le (computeReport [⟨50000, ⟨1, 2, 64, 128, 0, 0⟩⟩] 50000 60).pdr (Dbl.fin 1) = true) := by
  decide!

/-- C2, amended: when the accumulated txPackets total is 0 or the accumulated
rxPackets total does not exceed it, 0 <= pdr <= 1. -/
theorem pdr_mem_unit (stats : List Flow) (port : Nat) (simTime : ℚ)
    (h : (accumulate stats port simTime).txPackets = 0 ∨
      (accumulate stats port simTime).rxPackets ≤ (accumulate stats port simTime).txPackets) :
    Dbl.le (Dbl.fin 0) (computeReport stats port simTime).pdr = true ∧
      Dbl.le (computeReport stats port simTime).pdr (Dbl.fin 1) = true := by
  simp only [computeReport, deriveReport]
  generalize (accumulate stats port simTime).txPackets = tx at h
  generalize (accumulate stats port simTime).rxPackets = rx at h
  rcases Nat.eq_zero_or_pos tx with h0 | hpos
  · subst h0
    simp [pdr, Dbl.le]
  · have hrx : rx ≤ tx := by
      rcases h with h | h
      · omega
      · exact h
    rw [pdr_of_pos _ _ hpos]
    have hq : (0 : ℚ) < tx := by exact_mod_cast hpos
    have hle : (rx : ℚ) ≤ tx := by exact_mod_cast hrx
    simp only [Dbl.le, decide_eq_true_eq]
    exact ⟨div_nonneg (Nat.cast_nonneg _) hq.le, (div_le_one hq).mpr hle⟩

/-- Witness for C2 amended: 10 of 13 packets delivered over two flows. -/
theorem pdr_mem_unit_witness :
    Dbl.le (Dbl.fin 0)
        (computeReport [⟨50000, ⟨8, 7, 512, 448, 1, 1⟩⟩, ⟨50000, ⟨5, 3, 320, 192, 2, 1⟩⟩]
          50000 60).pdr = true ∧
      Dbl.le
        (computeReport [⟨50000, ⟨8, 7, 512, 448, 1, 1⟩⟩, ⟨50000, ⟨5, 3, 320, 192, 2, 1⟩⟩]
          50000 60).pdr (Dbl.fin 1) = true :=
  pdr_mem_unit _ 50000 60 (Or.inr (by decide!))

/-! ## C3: zero transmitted packets -/

/-- C3, as stated, fails: one flow to the sink port with txPackets = 0,
rxPackets = 1, delaySum = 5 s and jitterSum = 3 s has txPackets total 0, yet
avgDelay is 5 and avgJitter is 3: both are guarded by `rxPackets > 0`. -/
theorem avgDelay_ne_zero_of_tx_zero :
    (accumulate [⟨50000, ⟨0, 1, 0, 64, 5, 3⟩⟩] 50000 60).txPackets = 0 ∧
      (computeReport [⟨50000, ⟨0, 1, 0, 64, 5, 3⟩⟩] 50000 60).avgDelay = Dbl.fin 5 ∧
      (computeReport [⟨50000, ⟨0, 1, 0, 64, 5, 3⟩⟩] 50000 60).avgJitter = Dbl.fin 3 ∧
      (computeReport [⟨50000, ⟨0, 1, 0, 64, 5, 3⟩⟩] 50000 60).avgDelay ≠ Dbl.fin 0 := by
  decide!

/-- C3, amended: when the accumulated txPackets total is 0, pdr and lossRatio
are 0; avgDelay and avgJitter are finite values (no division by zero) and are
0 when the accumulated rxPackets total is 0. -/
theorem ratios_of_tx_zero (stats : List Flow) (port : Nat) (simTime : ℚ)
    (htx : (accumulate stats port simTime).txPackets = 0) :
    (computeReport stats port simTime).pdr = Dbl.fin 0 ∧
      (computeReport stats port simTime).lossRatio = Dbl.fin 0 ∧
      (computeReport stats port simTime).avgDelay.isFinite = true ∧
      (computeReport stats port simTime).avgJitter.isFinite = true ∧
      ((accumulate stats port simTime).rxPackets = 0 →
        (computeReport stats port simTime).avgDelay = Dbl.fin 0 ∧
          (computeReport stats port simTime).avgJitter = Dbl.fin 0) := by
  simp only [computeReport, deriveReport]
  refine ⟨?_, ?_, ?_, ?_, ?_⟩
  · simp [pdr, htx]
  · simp [lossRatio, htx]
  · exact avgDelay_isFinite _ _ (accumulate_totalDelay_isFinite stats port simTime)
  · exact avgJitter_isFinite _ _ (accumulate_totalJitter_isFinite stats port simTime)
  · intro hrx
    simp [avgDelay, avgJitter, hrx]

/-- Witness for C3 amended: two flows to the sink port that sent and received
nothing, and one flow to another port. -/
theorem ratios_of_tx_zero_witness :
    (accumulate [⟨50000, ⟨0, 0, 0, 0, 0, 0⟩⟩, ⟨53, ⟨7, 7, 700, 700, 1, 1⟩⟩,
          ⟨50000, ⟨0, 0, 0, 0, 0, 0⟩⟩] 50000 60).txPackets = 0 ∧
      (computeReport [⟨50000, ⟨0, 0, 0, 0, 0, 0⟩⟩, ⟨53, ⟨7, 7, 700, 700, 1, 1⟩⟩,
          ⟨50000, ⟨0, 0, 0, 0, 0, 0⟩⟩] 50000 60).pdr = Dbl.fin 0 ∧
      (computeReport [⟨50000, ⟨0, 0, 0, 0, 0, 0⟩⟩, ⟨53, ⟨7, 7, 700, 700, 1, 1⟩⟩,
          ⟨50000, ⟨0, 0, 0, 0, 0, 0⟩⟩] 50000 60).avgDelay = Dbl.fin 0 :=
  ⟨by decide!,
    (ratios_of_tx_zero _ 50000 60 (by decide!)).1,
    ((ratios_of_tx_zero _ 50000 60 (by decide!)).2.2.2.2 (by decide!)).1⟩

/-! ## C7: no flow to the sink port -/

/-- C7, as stated, fails: for the empty flow record set and simulated
duration 0, aggregate throughput and goodput are `0.0 / 0.0`, NaN, not 0. -/
theorem report_ne_blank_of_simTime_zero :
    (computeReport [] 50000 0).aggThroughput = Dbl.nan ∧
      (computeReport [] 50000 0).goodput = Dbl.nan ∧
      computeReport [] 50000 0 ≠ MetricsReport.blank := by
  decide!

/-- C7, amended: for every non-zero simulated duration and every record set
with no flow whose destination port is the sink port (the empty set
included), the report has every value 0 and hop count 1. -/
theorem report_blank_of_no_match (stats : List Flow) (port : Nat) (simTime : ℚ)
    (hT : simTime ≠ 0) (h : ∀ f ∈ stats, f.destinationPort ≠ port) :
    computeReport stats port simTime = MetricsReport.blank := by
  unfold computeReport
  rw [accumulate_of_no_match stats port simTime h]
  simp [deriveReport, Totals.init, MetricsReport.blank, aggThroughput, pdr, avgDelay,
    avgJitter, lossRatio, fairness, Dbl.div, Dbl.mul, Dbl.ofNat, hT]

/-- Witness for C7 amended: two control flows to other ports, 60 s. -/
theorem report_blank_of_no_match_witness :
    computeReport [⟨53, ⟨7, 7, 700, 700, 1, 1⟩⟩, ⟨67, ⟨2, 1, 600, 300, 1, 0⟩⟩] 50000 60 =
      MetricsReport.blank :=
  report_blank_of_no_match _ 50000 60 (by norm_num) (by decide)

/-! ## C10: flows to other ports do not influence the report -/

/-- C10: two flow record sets with the same records, in the same order, among
those addressed to the sink port give the same accumulated counters and
throughput list, hence the same report; a record to another port leaves every
accumulator unchanged. -/
theorem report_eq_of_toPort_eq (stats₁ stats₂ : List Flow) (port : Nat) (simTime : ℚ)
    (h : toPort stats₁ port = toPort stats₂ port) :
    accumulate stats₁ port simTime = accumulate stats₂ port simTime ∧
      computeReport stats₁ port simTime = computeReport stats₂ port simTime := by
  have hacc : accumulate stats₁ port simTime = accumulate stats₂ port simTime := by
    rw [accumulate_toPort stats₁, accumulate_toPort stats₂, h]
  exact ⟨hacc, by unfold computeReport; rw [hacc]⟩

/-- Witness for C10: the same two sink flows, interleaved with different
control flows. -/
theorem report_eq_of_toPort_eq_witness :
    computeReport [⟨50000, ⟨8, 7, 512, 448, 1, 1⟩⟩, ⟨53, ⟨7, 7, 700, 700, 1, 1⟩⟩,
        ⟨50000, ⟨5, 3, 320, 192, 2, 1⟩⟩] 50000 60 =
      computeReport [⟨67, ⟨2, 1, 600, 300, 1, 0⟩⟩, ⟨50000, ⟨8, 7, 512, 448, 1, 1⟩⟩,
        ⟨50000, ⟨5, 3, 320, 192, 2, 1⟩⟩, ⟨9, ⟨4, 4, 99, 99, 0, 0⟩⟩] 50000 60 :=
  (report_eq_of_toPort_eq _ _ 50000 60 (by decide)).2

/-! ## C4, C5: Jain's index on flows that delivered nothing -/

/-- C4 at its failing input: one flow to the sink port that sent 10 packets
and received 0 bytes (60 s).  The throughput list is `[0.0]`, not empty, and
fairness is `0.0 / (1 * 0.0)`, NaN, which is not in [0,1]. -/
theorem fairness_nan_of_single_zero_throughput :
    (accumulate [⟨50000, ⟨10, 0, 640, 0, 0, 0⟩⟩] 50000 60).perNodeThroughput = [Dbl.fin 0] ∧
      (computeReport [⟨50000, ⟨10, 0, 640, 0, 0, 0⟩⟩] 50000 60).fairness = Dbl.nan ∧
      ¬ (Dbl.le (Dbl.fin 0)
            (computeReport [⟨50000, ⟨10, 0, 640, 0, 0, 0⟩⟩] 50000 60).fairness = true ∧
          Dbl.le (computeReport [⟨50000, ⟨10, 0, 640, 0, 0, 0⟩⟩] 50000 60).fairness
            (Dbl.fin 1) = true) := by
  decide!

/-- C5 at its failing input: two flows to the sink port that each received
0 bytes (60 s).  The throughputs are equal, `[0.0, 0.0]`, and fairness is
`0.0 / (2 * 0.0)`, NaN, not 1. -/
theorem fairness_nan_of_equal_zero_throughputs :
    (accumulate [⟨50000, ⟨10, 0, 640, 0, 0, 0⟩⟩, ⟨50000, ⟨6, 0, 384, 0, 0, 0⟩⟩]
        50000 60).perNodeThroughput = [Dbl.fin 0, Dbl.fin 0] ∧
      (computeReport [⟨50000, ⟨10, 0, 640, 0, 0, 0⟩⟩, ⟨50000, ⟨6, 0, 384, 0, 0, 0⟩⟩]
        50000 60).fairness = Dbl.nan ∧
      (computeReport [⟨50000, ⟨10, 0, 640, 0, 0, 0⟩⟩, ⟨50000, ⟨6, 0, 384, 0, 0, 0⟩⟩]
        50000 60).fairness ≠ Dbl.fin 1 := by
  decide!

/-! ## Lemmas on binary64 rounding -/

namespace Binary64

theorem pow2_pos (k : ℤ) : 0 < pow2 k := by
  unfold pow2; positivity

theorem pow2_add (a b : ℤ) : pow2 (a + b) = pow2 a * pow2 b := by
  unfold pow2; exact zpow_add₀ (by norm_num) a b

theorem pow2_le_pow2 {a b : ℤ} (h : a ≤ b) : pow2 a ≤ pow2 b := by
  unfold pow2; exact zpow_le_zpow_right₀ (by norm_num) h

theorem pow2_lt_pow2 {a b : ℤ} (h : a < b) : pow2 a < pow2 b := by
  unfold pow2; exact zpow_lt_zpow_right₀ (by norm_num) h

theorem pow2_succ (a : ℤ) : pow2 (a + 1) = 2 * pow2 a := by
  rw [pow2_add]; unfold pow2; simp [mul_comm]

theorem pow2_natCast (n : ℕ) : pow2 (n : ℤ) = (2 : ℚ) ^ n := by
  unfold pow2; exact zpow_natCast 2 n

theorem floor_le_roundHalfEven (y : ℚ) : ⌊y⌋ ≤ roundHalfEven y := by
  unfold roundHalfEven; split_ifs <;> omega

theorem roundHalfEven_le_floor_add_one (y : ℚ) : roundHalfEven y ≤ ⌊y⌋ + 1 := by
  unfold roundHalfEven; split_ifs <;> omega

theorem roundHalfEven_sub_le (y : ℚ) : |(roundHalfEven y : ℚ) - y| ≤ 1 / 2 := by
  have h1 := Int.floor_le y
  have h2 := Int.lt_floor_add_one y
  unfold roundHalfEven
  split_ifs <;> push_cast <;> rw [abs_le] <;> constructor <;> linarith

theorem roundHalfEven_mono {y z : ℚ} (h : y ≤ z) : roundHalfEven y ≤ roundHalfEven z := by
  rcases lt_or_eq_of_le (Int.floor_mono h) with hlt | heq
  · have h1 := roundHalfEven_le_floor_add_one y
    have h2 := floor_le_roundHalfEven z
    omega
  · unfold roundHalfEven
    rw [← heq]
    split_ifs <;> first | omega | (exfalso; linarith)

theorem roundHalfEven_intCast (n : ℤ) : roundHalfEven (n : ℚ) = n := by
  unfold roundHalfEven
  simp

theorem log2Fuel_eq (fuel n : Nat) (h : n ≤ fuel) : log2Fuel fuel n = Nat.log2 n := by
  induction fuel generalizing n with
  | zero =>
    have : n = 0 := by omega
    subst this
    rw [Nat.log2]
    simp [log2Fuel]
  | succ k ih =>
    rw [Nat.log2]
    unfold log2Fuel
    by_cases h2 : n < 2
    · rw [if_pos h2, if_neg (by omega)]
    · rw [if_neg h2, if_pos (by omega), ih (n / 2) (by omega)]

theorem ilog2_eq (n : Nat) : ilog2 n = Nat.log2 n := log2Fuel_eq n n le_rfl

theorem expo_spec {x : ℚ} (hx : 0 < x) : pow2 (expo x) ≤ x ∧ x < pow2 (expo x + 1) := by
  have hnum : 0 < x.num := Rat.num_pos.mpr hx
  have hp0 : x.num.natAbs ≠ 0 := by omega
  have hd0 : x.den ≠ 0 := x.den_nz
  have hp1 := Nat.log2_self_le hp0
  have hp2 := @Nat.lt_log2_self x.num.natAbs
  have hd1 := Nat.log2_self_le hd0
  have hd2 := @Nat.lt_log2_self x.den
  have hxeq : x = (x.num.natAbs : ℚ) / (x.den : ℚ) := by
    have : (x.num.natAbs : ℤ) = x.num := Int.natAbs_of_nonneg hnum.le
    have h2 : ((x.num.natAbs : ℕ) : ℚ) = (x.num : ℚ) := by
      rw [Nat.cast_natAbs, abs_of_pos hnum]
    rw [h2]
    exact (Rat.num_div_den x).symm
  set p := x.num.natAbs
  set d := x.den
  set a := Nat.log2 p
  set b := Nat.log2 d
  have hdq : (0 : ℚ) < d := by exact_mod_cast Nat.pos_of_ne_zero hd0
  have hp1q : (2 : ℚ) ^ a ≤ p := by exact_mod_cast hp1
  have hp2q : (p : ℚ) < 2 ^ (a + 1) := by exact_mod_cast hp2
  have hd1q : (2 : ℚ) ^ b ≤ d := by exact_mod_cast hd1
  have hd2q : (d : ℚ) < 2 ^ (b + 1) := by exact_mod_cast hd2
  have hpow : ∀ k : ℤ, pow2 ((a : ℤ) - (b : ℤ) + k) = 2 ^ a / 2 ^ b * pow2 k := by
    intro k
    rw [pow2_add, sub_eq_add_neg, pow2_add, pow2_natCast]
    unfold pow2
    rw [zpow_neg, zpow_natCast]
    ring
  have hlow : pow2 ((a : ℤ) - (b : ℤ) - 1) ≤ x := by
    have := hpow (-1)
    rw [← sub_eq_add_neg] at this
    rw [this, hxeq]
    unfold pow2
    rw [zpow_neg, zpow_one]
    rw [div_mul_eq_mul_div, div_le_div_iff₀ (by positivity) hdq]
    have : (2:ℚ) ^ a * 2⁻¹ * d ≤ 2 ^ a * 2⁻¹ * 2 ^ (b + 1) := by
      apply mul_le_mul_of_nonneg_left hd2q.le (by positivity)
    have h3 : (2:ℚ) ^ a * 2⁻¹ * 2 ^ (b + 1) = 2 ^ a * 2 ^ b := by
      rw [pow_succ]; ring
    nlinarith [pow_pos (show (0:ℚ) < 2 by norm_num) b]
  have hhigh : x < pow2 ((a : ℤ) - (b : ℤ) + 1) := by
    rw [hpow 1, hxeq]
    unfold pow2
    rw [zpow_one, div_mul_eq_mul_div, div_lt_div_iff₀ hdq (by positivity)]
    have h3 : (2:ℚ) ^ a * 2 = 2 ^ (a + 1) := by rw [pow_succ]
    rw [h3]
    have hb : (0:ℚ) < 2 ^ b := by positivity
    have ha : (0:ℚ) < 2 ^ (a+1) := by positivity
    nlinarith
  unfold expo
  rw [ilog2_eq, ilog2_eq]
  split_ifs with h
  · exact ⟨h, hhigh⟩
  · refine ⟨hlow, ?_⟩
    rw [sub_add_cancel]
    exact lt_of_not_le h

theorem expo_unique {x : ℚ} {e : ℤ} (h1 : pow2 e ≤ x) (h2 : x < pow2 (e + 1)) :
    expo x = e := by
  have hx : 0 < x := lt_of_lt_of_le (pow2_pos e) h1
  obtain ⟨h3, h4⟩ := expo_spec hx
  by_contra hne
  rcases lt_or_gt_of_ne hne with hlt | hgt
  · have : pow2 (expo x + 1) ≤ pow2 e := pow2_le_pow2 (by omega)
    linarith
  · have : pow2 (e + 1) ≤ pow2 (expo x) := pow2_le_pow2 (by omega)
    linarith

theorem expo_mono {x y : ℚ} (hx : 0 < x) (h : x ≤ y) : expo x ≤ expo y := by
  obtain ⟨h1, _⟩ := expo_spec hx
  obtain ⟨_, h4⟩ := expo_spec (lt_of_lt_of_le hx h)
  by_contra hlt
  have : pow2 (expo y + 1) ≤ pow2 (expo x) := pow2_le_pow2 (by omega)
  linarith

theorem expo_ge_of_pow2_le {x : ℚ} {k : ℤ} (h : pow2 k ≤ x) : k ≤ expo x := by
  have hk : expo (pow2 k) = k := expo_unique le_rfl (pow2_lt_pow2 (by omega))
  have := expo_mono (pow2_pos k) h
  omega

theorem expo_lt_of_lt_pow2 {x : ℚ} {k : ℤ} (hx : 0 < x) (h : x < pow2 k) : expo x < k := by
  obtain ⟨h1, _⟩ := expo_spec hx
  by_contra hge
  have : pow2 k ≤ pow2 (expo x) := pow2_le_pow2 (by omega)
  linarith

theorem quantum_pos (x : ℚ) : 0 < quantum x := pow2_pos _

theorem roundMag_eq {x : ℚ} (hx : 0 < x) :
    roundMag x = (roundHalfEven (x / quantum x) : ℚ) * quantum x := by
  unfold roundMag
  rw [if_neg hx.ne']

theorem roundMag_zero : roundMag 0 = 0 := by
  unfold roundMag
  rw [if_pos rfl]

theorem roundMag_nonneg {x : ℚ} (hx : 0 ≤ x) : 0 ≤ roundMag x := by
  rcases hx.eq_or_lt with h | h
  · rw [← h, roundMag_zero]
  · rw [roundMag_eq h]
    have hq := quantum_pos x
    have h0 : (0 : ℤ) ≤ roundHalfEven (x / quantum x) := by
      have h1 : (0 : ℤ) ≤ ⌊x / quantum x⌋ := Int.floor_nonneg.mpr (div_nonneg h.le hq.le)
      exact le_trans h1 (floor_le_roundHalfEven _)
    have : (0 : ℚ) ≤ (roundHalfEven (x / quantum x) : ℚ) := by exact_mod_cast h0
    positivity

/-- Rounding moves a positive value by at most half the local spacing. -/
theorem roundMag_sub_le {x : ℚ} (hx : 0 < x) : |roundMag x - x| ≤ quantum x / 2 := by
  rw [roundMag_eq hx]
  have hq := quantum_pos x
  have h := roundHalfEven_sub_le (x / quantum x)
  have hx' : x = x / quantum x * quantum x := by field_simp
  calc |(roundHalfEven (x / quantum x) : ℚ) * quantum x - x|
      = |((roundHalfEven (x / quantum x) : ℚ) - x / quantum x) * quantum x| := by
        congr 1
        rw [sub_mul, ← hx']
    _ = |(roundHalfEven (x / quantum x) : ℚ) - x / quantum x| * quantum x := by
        rw [abs_mul, abs_of_pos hq]
    _ ≤ 1 / 2 * quantum x := mul_le_mul_of_nonneg_right h hq.le
    _ = quantum x / 2 := by ring

theorem quantum_of_normal {x : ℚ} (h : pow2 (-1022) ≤ x) :
    quantum x = pow2 (expo x - 52) := by
  unfold quantum
  rw [max_eq_left (expo_ge_of_pow2_le h)]

theorem pow2_sub_53 (e : ℤ) : pow2 (e - 52) / 2 = pow2 e / 2 ^ 53 := by
  have h : e = (e - 52) + 52 := by ring
  conv_rhs => rw [h, pow2_add]
  have : pow2 52 = 2 ^ 52 := by
    have := pow2_natCast 52
    simpa using this
  rw [this]
  ring

/-- Relative error of rounding in the normal range: at most `2^-53`. -/
theorem roundMag_rel {x : ℚ} (h : pow2 (-1022) ≤ x) :
    (1 - 1 / 2 ^ 53) * x ≤ roundMag x ∧ roundMag x ≤ (1 + 1 / 2 ^ 53) * x := by
  have hx : 0 < x := lt_of_lt_of_le (pow2_pos _) h
  have h1 := roundMag_sub_le hx
  rw [quantum_of_normal h, pow2_sub_53] at h1
  have h2 : pow2 (expo x) / 2 ^ 53 ≤ x / 2 ^ 53 :=
    div_le_div_of_nonneg_right (expo_spec hx).1 (by positivity)
  rw [abs_le] at h1
  constructor <;> linarith [h1.1, h1.2]

theorem roundMag_le_top {x : ℚ} (hx : 0 < x) :
    roundMag x ≤ pow2 (max (expo x) (-1022) + 1) := by
  rw [roundMag_eq hx]
  have hq := quantum_pos x
  set c := max (expo x) (-1022) with hc
  have hqc : quantum x = pow2 (c - 52) := rfl
  have htop : pow2 (c + 1) = ((2 ^ 53 : ℤ) : ℚ) * quantum x := by
    have h : c + 1 = 53 + (c - 52) := by ring
    rw [h, pow2_add, hqc]
    have : pow2 53 = 2 ^ 53 := by
      have := pow2_natCast 53
      simpa using this
    rw [this]
    norm_num
  have hxlt : x ≤ pow2 (c + 1) :=
    le_trans (expo_spec hx).2.le (pow2_le_pow2 (by have := le_max_left (expo x) (-1022); omega))
  have hdiv : x / quantum x ≤ ((2 ^ 53 : ℤ) : ℚ) := by
    rw [div_le_iff₀ hq, ← htop]
    exact hxlt
  have hm : roundHalfEven (x / quantum x) ≤ 2 ^ 53 := by
    have := roundHalfEven_mono hdiv
    rwa [roundHalfEven_intCast] at this
  rw [htop]
  exact mul_le_mul_of_nonneg_right (by exact_mod_cast hm) hq.le

theorem roundMag_ge_bottom {x : ℚ} (h : pow2 (-1022) ≤ x) : pow2 (expo x) ≤ roundMag x := by
  have hx : 0 < x := lt_of_lt_of_le (pow2_pos _) h
  rw [roundMag_eq hx]
  have hq := quantum_pos x
  have hqe := quantum_of_normal h
  have hbot : pow2 (expo x) = ((2 ^ 52 : ℤ) : ℚ) * quantum x := by
    have h' : expo x = 52 + (expo x - 52) := by ring
    conv_lhs => rw [h', pow2_add]
    rw [hqe]
    have : pow2 52 = 2 ^ 52 := by
      have := pow2_natCast 52
      simpa using this
    rw [this]
    norm_num
  have hdiv : ((2 ^ 52 : ℤ) : ℚ) ≤ x / quantum x := by
    rw [le_div_iff₀ hq, ← hbot]
    exact (expo_spec hx).1
  have hm : 2 ^ 52 ≤ roundHalfEven (x / quantum x) := by
    have := roundHalfEven_mono hdiv
    rwa [roundHalfEven_intCast] at this
  rw [hbot]
  exact mul_le_mul_of_nonneg_right (by exact_mod_cast hm) hq.le

/-- Rounding is monotone on non-negative values. -/
theorem roundMag_mono {x y : ℚ} (hx : 0 ≤ x) (h : x ≤ y) : roundMag x ≤ roundMag y := by
  rcases hx.eq_or_lt with h0 | hpos
  · rw [← h0, roundMag_zero]
    exact roundMag_nonneg (le_trans hx h)
  have hy : 0 < y := lt_of_lt_of_le hpos h
  have he := expo_mono hpos h
  rcases (max_le_max he (le_refl (-1022 : ℤ))).eq_or_lt with hc | hc
  · have hq : quantum x = quantum y := by
      unfold quantum
      rw [hc]
    rw [roundMag_eq hpos, roundMag_eq hy, hq]
    have hdiv : x / quantum y ≤ y / quantum y :=
      div_le_div_of_nonneg_right h (quantum_pos y).le
    exact mul_le_mul_of_nonneg_right (by exact_mod_cast roundHalfEven_mono hdiv)
      (quantum_pos y).le
  · have hynorm : -1022 < expo y := by
      by_contra hn
      have h1 : max (expo y) (-1022) = -1022 := max_eq_right (by omega)
      have h2 := le_max_right (expo x) (-1022)
      omega
    have hymax : max (expo y) (-1022) = expo y := max_eq_left (by omega)
    have hyge : pow2 (-1022) ≤ y :=
      le_trans (pow2_le_pow2 (by omega)) (expo_spec hy).1
    calc roundMag x ≤ pow2 (max (expo x) (-1022) + 1) := roundMag_le_top hpos
      _ ≤ pow2 (expo y) := pow2_le_pow2 (by omega)
      _ ≤ roundMag y := roundMag_ge_bottom hyge

/-- A positive value that is an integer multiple of its own spacing is kept. -/
theorem roundMag_of_multiple {x : ℚ} (hx : 0 < x) (n : ℤ) (h : x = (n : ℚ) * quantum x) :
    roundMag x = x := by
  rw [roundMag_eq hx]
  have hq := quantum_pos x
  have : x / quantum x = (n : ℚ) := by
    rw [div_eq_iff hq.ne']
    exact h
  rw [this, roundHalfEven_intCast]
  exact h.symm

/-- Naturals below `2^53` are binary64 values. -/
theorem roundMag_natCast (n : ℕ) (hn : n < 2 ^ 53) : roundMag (n : ℚ) = n := by
  rcases Nat.eq_zero_or_pos n with h0 | hpos
  · subst h0
    simpa using roundMag_zero
  have hx : (0 : ℚ) < n := by exact_mod_cast hpos
  have h1 : pow2 0 ≤ (n : ℚ) := by
    unfold pow2
    simp only [zpow_zero]
    exact_mod_cast hpos
  have hlt : (n : ℚ) < pow2 53 := by
    have := pow2_natCast 53
    rw [show ((53 : ℕ) : ℤ) = 53 from rfl] at this
    rw [this]
    exact_mod_cast hn
  have he0 : 0 ≤ expo (n : ℚ) := expo_ge_of_pow2_le h1
  have he1 : expo (n : ℚ) < 53 := expo_lt_of_lt_pow2 hx hlt
  have hq : quantum (n : ℚ) = pow2 (expo (n : ℚ) - 52) := by
    unfold quantum
    rw [max_eq_left (by omega)]
  obtain ⟨k, hk⟩ : ∃ k : ℕ, (k : ℤ) = 52 - expo (n : ℚ) := ⟨(52 - expo (n : ℚ)).toNat, by
    rw [Int.toNat_of_nonneg (by omega)]⟩
  have hq2 : quantum (n : ℚ) * 2 ^ k = 1 := by
    rw [hq, ← pow2_natCast, ← pow2_add, hk]
    have : expo (n : ℚ) - 52 + (52 - expo (n : ℚ)) = 0 := by ring
    rw [this]
    unfold pow2
    simp
  apply roundMag_of_multiple hx ((n : ℤ) * 2 ^ k)
  push_cast
  rw [mul_assoc, mul_comm ((2 : ℚ) ^ k), hq2, mul_one]

end Binary64

/-! ## Lemmas on rounded operations -/

namespace Binary64

theorem round_of_nonneg {x : ℚ} (hx : 0 ≤ x) :
    round x = if pow2 1024 ≤ roundMag x then Dbl.inf false else Dbl.fin (roundMag x) := by
  unfold round
  rw [abs_of_nonneg hx]
  have h : ¬ x < 0 := not_lt.mpr hx
  simp [h]

theorem round_of_neg {x : ℚ} (hx : x < 0) :
    round x = if pow2 1024 ≤ roundMag (-x) then Dbl.inf true else Dbl.fin (-roundMag (-x)) := by
  unfold round
  rw [abs_of_neg hx]
  simp [hx]

theorem roundMag_le_pow2 {x : ℚ} (hx : 0 ≤ x) {k : ℤ} (hk : -1021 ≤ k) (h : x < pow2 k) :
    roundMag x ≤ pow2 k := by
  rcases hx.eq_or_lt with h0 | hpos
  · rw [← h0, roundMag_zero]
    exact (pow2_pos k).le
  · have he := expo_lt_of_lt_pow2 hpos h
    refine le_trans (roundMag_le_top hpos) (pow2_le_pow2 ?_)
    have := max_le (show expo x ≤ k - 1 by omega) (show (-1022 : ℤ) ≤ k - 1 by omega)
    omega

theorem round_eq_fin {x : ℚ} (hx : 0 ≤ x) (h : x < pow2 1023) :
    round x = Dbl.fin (roundMag x) := by
  rw [round_of_nonneg hx, if_neg]
  have h1 := roundMag_le_pow2 hx (by norm_num) h
  have h2 : pow2 1023 < pow2 1024 := pow2_lt_pow2 (by norm_num)
  exact not_le.mpr (lt_of_le_of_lt h1 h2)

theorem pow2_ofNat (n : ℕ) : pow2 (n : ℤ) = ((2 ^ n : ℕ) : ℚ) := by
  rw [pow2_natCast]
  norm_num

theorem natCast_lt_pow2_1023 (n : ℕ) (hn : n < 2 ^ 128) : (n : ℚ) < pow2 1023 := by
  have h1 : (n : ℚ) < pow2 128 := by
    rw [show (128 : ℤ) = ((128 : ℕ) : ℤ) from rfl, pow2_ofNat]
    exact_mod_cast hn
  exact lt_trans h1 (pow2_lt_pow2 (by norm_num))

theorem round_natCast (n : ℕ) (hn : n < 2 ^ 53) : round (n : ℚ) = Dbl.fin (n : ℚ) := by
  rw [round_eq_fin (Nat.cast_nonneg n)
    (natCast_lt_pow2_1023 n (lt_trans hn (by norm_num))), roundMag_natCast n hn]

theorem round_zero : round 0 = Dbl.fin 0 := by
  have := round_natCast 0 (by norm_num)
  simpa using this

/-- The double literal `0.2`. -/
theorem round_fifth : round (1 / 5) = Dbl.fin (3602879701896397 / 2 ^ 54) := by
  decide!

end Binary64

/-! ## Lemmas on the schedule -/

theorem sensorWindow_start (i : Nat) (hi : i < 2 ^ 32) (simTime : ℚ) :
    (sensorWindow i simTime).start =
      Dbl.fin (Binary64.roundMag
        (1 + Binary64.roundMag ((i : ℚ) * (3602879701896397 / 2 ^ 54)))) := by
  have hi53 : i < 2 ^ 53 := lt_trans hi (by norm_num)
  have hprod0 : (0 : ℚ) ≤ (i : ℚ) * (3602879701896397 / 2 ^ 54) := by positivity
  have hprod1 : (i : ℚ) * (3602879701896397 / 2 ^ 54) ≤ ((2 ^ 32 : ℕ) : ℚ) := by
    have h1 : (i : ℚ) ≤ ((2 ^ 32 : ℕ) : ℚ) := by exact_mod_cast hi.le
    have h2 : (3602879701896397 / 2 ^ 54 : ℚ) ≤ 1 := by norm_num
    calc (i : ℚ) * (3602879701896397 / 2 ^ 54) ≤ (i : ℚ) * 1 :=
          mul_le_mul_of_nonneg_left h2 (Nat.cast_nonneg i)
      _ = i := mul_one _
      _ ≤ _ := h1
  have hr : Binary64.roundMag ((i : ℚ) * (3602879701896397 / 2 ^ 54)) ≤ ((2 ^ 32 : ℕ) : ℚ) := by
    have := Binary64.roundMag_mono hprod0 hprod1
    rwa [Binary64.roundMag_natCast _ (by norm_num)] at this
  have hr0 := Binary64.roundMag_nonneg hprod0
  have hmul : Binary64.mul (Binary64.ofNat i) (Binary64.round (1 / 5)) =
      Dbl.fin (Binary64.roundMag ((i : ℚ) * (3602879701896397 / 2 ^ 54))) := by
    unfold Binary64.mul Binary64.ofNat
    rw [Binary64.round_natCast i hi53, Binary64.round_fifth]
    show Binary64.round _ = _
    apply Binary64.round_eq_fin hprod0
    exact lt_of_le_of_lt hprod1 (Binary64.natCast_lt_pow2_1023 _ (by norm_num))
  unfold sensorWindow
  simp only [hmul]
  unfold Binary64.add
  show Binary64.round _ = _
  apply Binary64.round_eq_fin (by linarith)
  have : (1 : ℚ) + Binary64.roundMag ((i : ℚ) * (3602879701896397 / 2 ^ 54)) ≤
      ((2 ^ 32 + 1 : ℕ) : ℚ) := by
    push_cast
    push_cast at hr
    linarith
  exact lt_of_le_of_lt this (Binary64.natCast_lt_pow2_1023 _ (by norm_num))

theorem sensorStart_mono {i j : Nat} (h : i ≤ j) :
    Binary64.roundMag (1 + Binary64.roundMag ((i : ℚ) * (3602879701896397 / 2 ^ 54))) ≤
      Binary64.roundMag (1 + Binary64.roundMag ((j : ℚ) * (3602879701896397 / 2 ^ 54))) := by
  have h0 : (0 : ℚ) ≤ (i : ℚ) * (3602879701896397 / 2 ^ 54) := by positivity
  have h1 : (i : ℚ) * (3602879701896397 / 2 ^ 54) ≤ (j : ℚ) * (3602879701896397 / 2 ^ 54) := by
    apply mul_le_mul_of_nonneg_right _ (by norm_num)
    exact_mod_cast h
  have h2 := Binary64.roundMag_mono h0 h1
  have h3 := Binary64.roundMag_nonneg h0
  exact Binary64.roundMag_mono (by linarith) (by linarith)

/-- A binary64 value above 10 is at least one spacing above it. -/
theorem double_gt_ten {x : ℚ} (hx : Binary64.round x = Dbl.fin x) (h : 10 < x) :
    10 + 1 / 2 ^ 49 ≤ x := by
  by_contra hlt
  rw [not_le] at hlt
  have hpos : 0 < x := by linarith
  have hr : Binary64.roundMag x = x := by
    rw [Binary64.round_of_nonneg hpos.le] at hx
    split_ifs at hx
    exact Dbl.fin.inj hx
  have h8 : Binary64.pow2 3 ≤ x := by
    unfold Binary64.pow2
    norm_num
    linarith
  have h16 : x < Binary64.pow2 (3 + 1) := by
    unfold Binary64.pow2
    norm_num
    linarith
  have he : Binary64.expo x = 3 := Binary64.expo_unique h8 h16
  have hq : Binary64.quantum x = 1 / 2 ^ 49 := by
    unfold Binary64.quantum
    rw [he]
    unfold Binary64.pow2
    norm_num
  rw [Binary64.roundMag_eq hpos, hq] at hr
  set m := Binary64.roundHalfEven (x / (1 / 2 ^ 49)) with hm
  have hmx : (m : ℚ) = x * 562949953421312 := by
    rw [← hr]
    norm_num
    ring
  have h1 : (5629499534213120 : ℚ) < (m : ℚ) := by
    rw [hmx]
    linarith
  have h2 : (5629499534213121 : ℤ) ≤ m := by
    have : (5629499534213120 : ℤ) < m := by exact_mod_cast h1
    omega
  have h3 : (5629499534213121 : ℚ) ≤ (m : ℚ) := by exact_mod_cast h2
  have h4 : x * 562949953421312 < (10 + 1 / 2 ^ 49) * 562949953421312 :=
    mul_lt_mul_of_pos_right hlt (by norm_num)
  norm_num at h4
  linarith

theorem attacker_lt_iff (simTime : ℚ) (hT : Binary64.round simTime = Dbl.fin simTime) :
    Dbl.lt (attackerWindow simTime).start (attackerWindow simTime).stop = true ↔
      10 < simTime := by
  unfold attackerWindow Binary64.sub
  show Dbl.lt (Dbl.fin 5) (Binary64.round (simTime - 5)) = true ↔ _
  constructor
  · intro h
    by_contra hle
    rw [not_lt] at hle
    rcases lt_or_le (simTime - 5) 0 with hneg | hnn
    · rw [Binary64.round_of_neg hneg] at h
      split_ifs at h
      · simp [Dbl.lt] at h
      · have := Binary64.roundMag_nonneg (show (0 : ℚ) ≤ -(simTime - 5) by linarith)
        simp only [Dbl.lt, decide_eq_true_eq] at h
        linarith
    · have h5 : Binary64.roundMag (simTime - 5) ≤ 5 := by
        have := Binary64.roundMag_mono hnn (show simTime - 5 ≤ ((5 : ℕ) : ℚ) by
          push_cast; linarith)
        rwa [Binary64.roundMag_natCast 5 (by norm_num)] at this
      rw [Binary64.round_of_nonneg hnn] at h
      split_ifs at h with hov
      · have : (5 : ℚ) < Binary64.pow2 1024 := by
          have := Binary64.natCast_lt_pow2_1023 5 (by norm_num)
          have h2 : Binary64.pow2 1023 < Binary64.pow2 1024 :=
            Binary64.pow2_lt_pow2 (by norm_num)
          push_cast at this
          linarith
        linarith
      · simp only [Dbl.lt, decide_eq_true_eq] at h
        linarith
  · intro h
    have hge := double_gt_ten hT h
    have hnn : (0 : ℚ) ≤ simTime - 5 := by linarith
    have hgrid : Binary64.roundMag (5 + 1 / 2 ^ 49) = 5 + 1 / 2 ^ 49 := by decide!
    have hr : 5 + 1 / 2 ^ 49 ≤ Binary64.roundMag (simTime - 5) := by
      have := Binary64.roundMag_mono (show (0 : ℚ) ≤ 5 + 1 / 2 ^ 49 by positivity)
        (show (5 : ℚ) + 1 / 2 ^ 49 ≤ simTime - 5 by linarith)
      rwa [hgrid] at this
    rw [Binary64.round_of_nonneg hnn]
    split_ifs
    · simp [Dbl.lt]
    · simp only [Dbl.lt, decide_eq_true_eq]
      have : (0 : ℚ) < 1 / 2 ^ 49 := by positivity
      linarith

/-! ## Lemmas on the rounded metrics -/

namespace Binary64

theorem foldl_step_ints (port : Nat) (simTime : ℚ) (stats : List Flow) (a b : Totals)
    (h : a.txPackets = b.txPackets ∧ a.rxPackets = b.rxPackets ∧ a.txBytes = b.txBytes ∧
      a.rxBytes = b.rxBytes) :
    (stats.foldl (step port simTime) a).txPackets =
        (stats.foldl (BusTopology.step port simTime) b).txPackets ∧
      (stats.foldl (step port simTime) a).rxPackets =
        (stats.foldl (BusTopology.step port simTime) b).rxPackets ∧
      (stats.foldl (step port simTime) a).txBytes =
        (stats.foldl (BusTopology.step port simTime) b).txBytes ∧
      (stats.foldl (step port simTime) a).rxBytes =
        (stats.foldl (BusTopology.step port simTime) b).rxBytes := by
  induction stats generalizing a b with
  | nil => exact h
  | cons f fs ih =>
    simp only [List.foldl_cons]
    apply ih
    obtain ⟨h1, h2, h3, h4⟩ := h
    unfold step BusTopology.step
    split <;> simp [h1, h2, h3, h4]

theorem accumulate_ints (stats : List Flow) (port : Nat) (simTime : ℚ) :
    (accumulate stats port simTime).txPackets =
        (BusTopology.accumulate stats port simTime).txPackets ∧
      (accumulate stats port simTime).rxPackets =
        (BusTopology.accumulate stats port simTime).rxPackets ∧
      (accumulate stats port simTime).txBytes =
        (BusTopology.accumulate stats port simTime).txBytes ∧
      (accumulate stats port simTime).rxBytes =
        (BusTopology.accumulate stats port simTime).rxBytes :=
  foldl_step_ints port simTime stats Totals.init Totals.init ⟨rfl, rfl, rfl, rfl⟩

theorem txPackets_lt (stats : List Flow) (port : Nat) (simTime : ℚ) :
    (accumulate stats port simTime).txPackets < 2 ^ 64 := by
  rw [(accumulate_ints stats port simTime).1]
  exact BusTopology.accumulate_txPackets_lt stats port simTime

theorem rxBytes_eq (stats : List Flow) (port : Nat) (simTime : ℚ) :
    (accumulate stats port simTime).rxBytes =
      u64 ((toPort stats port).map (fun f => f.second.rxBytes)).sum := by
  rw [(accumulate_ints stats port simTime).2.2.2]
  exact BusTopology.accumulate_rxBytes stats port simTime

theorem foldl_step_throughputs (port : Nat) (simTime : ℚ) (stats : List Flow)
    (a : Totals) :
    (stats.foldl (step port simTime) a).perNodeThroughput =
      a.perNodeThroughput ++
        (toPort stats port).map (fun f => throughput f.second.rxBytes simTime) := by
  induction stats generalizing a with
  | nil => simp [toPort]
  | cons f fs ih =>
    rw [List.foldl_cons, ih]
    by_cases h : f.destinationPort = port
    · simp [step, toPort, List.filter_cons, h]
    · simp [step, toPort, List.filter_cons, h]

theorem accumulate_throughputs (stats : List Flow) (port : Nat) (simTime : ℚ) :
    (accumulate stats port simTime).perNodeThroughput =
      (toPort stats port).map (fun f => throughput f.second.rxBytes simTime) := by
  unfold accumulate
  rw [foldl_step_throughputs]
  simp [Totals.init]

theorem pow2_neg_1022_le_one : pow2 (-1022) ≤ 1 := by
  have h := pow2_le_pow2 (show (-1022 : ℤ) ≤ 0 by norm_num)
  have h0 : pow2 0 = 1 := by unfold pow2; simp
  rwa [h0] at h

/-- Conversion of a positive 64-bit integer: finite, within relative `2^-53`. -/
theorem ofNat_rel (n : ℕ) (hn : n < 2 ^ 64) :
    ofNat n = Dbl.fin (roundMag (n : ℚ)) ∧
      (1 - 1 / 2 ^ 53) * (n : ℚ) ≤ roundMag (n : ℚ) ∧
      roundMag (n : ℚ) ≤ (1 + 1 / 2 ^ 53) * (n : ℚ) := by
  refine ⟨round_eq_fin (Nat.cast_nonneg n)
    (natCast_lt_pow2_1023 n (lt_trans hn (by norm_num))), ?_⟩
  rcases Nat.eq_zero_or_pos n with h0 | hpos
  · subst h0
    simp [roundMag_zero]
  · have h1 : (1 : ℚ) ≤ n := by exact_mod_cast hpos
    exact roundMag_rel (le_trans pow2_neg_1022_le_one h1)

/-- The rounded quotient of two 64-bit integers `n ≤ d`, `d > 0`, is a finite
value of `[0,1]` within `4 * 2^-53` of `n / d`. -/
theorem div_ofNat_near (n d : ℕ) (hd : 0 < d) (hnd : n ≤ d) (hd64 : d < 2 ^ 64) :
    ∃ p : ℚ, div (ofNat n) (ofNat d) = Dbl.fin p ∧ 0 ≤ p ∧ p ≤ 1 ∧
      |p - (n : ℚ) / (d : ℚ)| ≤ 4 / 2 ^ 53 := by
  obtain ⟨hn1, hn2, hn3⟩ := ofNat_rel n (lt_of_le_of_lt hnd hd64)
  obtain ⟨hd1, hd2, hd3⟩ := ofNat_rel d hd64
  have hD : (1 : ℚ) ≤ d := by exact_mod_cast hd
  have hN0 : (0 : ℚ) ≤ n := Nat.cast_nonneg n
  have hND : (n : ℚ) ≤ d := by exact_mod_cast hnd
  set a := roundMag (n : ℚ) with ha
  set b := roundMag (d : ℚ) with hb
  have hbpos : 0 < b := by
    have : (0 : ℚ) < (1 - 1 / 2 ^ 53) * (d : ℚ) := by
      apply mul_pos (by norm_num) (by linarith)
    linarith
  have ha0 : 0 ≤ a := roundMag_nonneg hN0
  have hab : a ≤ b := roundMag_mono hN0 hND
  have hq0 : 0 ≤ a / b := div_nonneg ha0 hbpos.le
  have hq1 : a / b ≤ 1 := (div_le_one hbpos).mpr hab
  have hdiv : div (ofNat n) (ofNat d) = Dbl.fin (roundMag (a / b)) := by
    unfold div
    rw [hn1, hd1]
    show rnd (Dbl.div (Dbl.fin a) (Dbl.fin b)) = _
    simp only [Dbl.div, hbpos.ne', if_false]
    show round (a / b) = _
    apply round_eq_fin hq0
    have : (1 : ℚ) < pow2 1023 := by
      have := natCast_lt_pow2_1023 1 (by norm_num)
      simpa using this
    linarith
  have hp0 : 0 ≤ roundMag (a / b) := roundMag_nonneg hq0
  have hp1 : roundMag (a / b) ≤ 1 := by
    have := roundMag_mono hq0 (show a / b ≤ ((1 : ℕ) : ℚ) by simpa using hq1)
    rwa [roundMag_natCast 1 (by norm_num), Nat.cast_one] at this
  refine ⟨roundMag (a / b), hdiv, hp0, hp1, ?_⟩
  rcases Nat.eq_zero_or_pos n with h0 | hpos
  · have ha' : a = 0 := by
      rw [ha, h0]
      simpa using roundMag_zero
    rw [ha', h0]
    simp only [zero_div, roundMag_zero, Nat.cast_zero, sub_self, abs_zero]
    norm_num
  have hN : (1 : ℚ) ≤ n := by exact_mod_cast hpos
  have hdpos : (0 : ℚ) < d := by linarith
  set r := (n : ℚ) / (d : ℚ) with hr
  have hr0 : 0 < r := div_pos (by linarith) hdpos
  have hr1 : r ≤ 1 := (div_le_one hdpos).mpr hND
  have hqup : a / b ≤ (1 + 1 / 2 ^ 53) / (1 - 1 / 2 ^ 53) * r := by
    rw [hr, ← mul_div_mul_comm]
    exact div_le_div₀ (by positivity) hn3 (by apply mul_pos (by norm_num) hdpos) hd2
  have hqlo : (1 - 1 / 2 ^ 53) / (1 + 1 / 2 ^ 53) * r ≤ a / b := by
    rw [hr, ← mul_div_mul_comm]
    exact div_le_div₀ ha0 hn2 hbpos hd3
  have hnorm : pow2 (-1022) ≤ a / b := by
    have h1 : pow2 (-1022) ≤ pow2 (-66) := pow2_le_pow2 (by norm_num)
    have h2 : pow2 (-66) = 1 / 2 ^ 66 := by unfold pow2; norm_num
    have h3 : (1 : ℚ) / 2 ^ 64 ≤ r := by
      rw [hr, div_le_div_iff₀ (by positivity) hdpos]
      have : (d : ℚ) < 2 ^ 64 := by exact_mod_cast hd64
      nlinarith
    have h4 : (1 : ℚ) / 2 ^ 66 ≤ (1 - 1 / 2 ^ 53) / (1 + 1 / 2 ^ 53) * (1 / 2 ^ 64) := by
      norm_num
    have h5 : (1 - 1 / 2 ^ 53) / (1 + 1 / 2 ^ 53) * (1 / 2 ^ 64) ≤
        (1 - 1 / 2 ^ 53) / (1 + 1 / 2 ^ 53) * r :=
      mul_le_mul_of_nonneg_left h3 (by norm_num)
    rw [h2] at h1
    linarith
  obtain ⟨hp2, hp3⟩ := roundMag_rel hnorm
  have hk1 : (1 + 1 / 2 ^ 53) * ((1 + 1 / 2 ^ 53) / (1 - 1 / 2 ^ 53)) ≤ (1 + 4 / 2 ^ 53 : ℚ) := by
    norm_num
  have hk2 : (1 - 4 / 2 ^ 53 : ℚ) ≤ (1 - 1 / 2 ^ 53) * ((1 - 1 / 2 ^ 53) / (1 + 1 / 2 ^ 53)) := by
    norm_num
  have hup : roundMag (a / b) ≤ (1 + 4 / 2 ^ 53) * r := by
    calc roundMag (a / b) ≤ (1 + 1 / 2 ^ 53) * (a / b) := hp3
      _ ≤ (1 + 1 / 2 ^ 53) * ((1 + 1 / 2 ^ 53) / (1 - 1 / 2 ^ 53) * r) :=
          mul_le_mul_of_nonneg_left hqup (by norm_num)
      _ = (1 + 1 / 2 ^ 53) * ((1 + 1 / 2 ^ 53) / (1 - 1 / 2 ^ 53)) * r := by ring
      _ ≤ (1 + 4 / 2 ^ 53) * r := mul_le_mul_of_nonneg_right hk1 hr0.le
  have hlo : (1 - 4 / 2 ^ 53) * r ≤ roundMag (a / b) := by
    calc (1 - 4 / 2 ^ 53) * r
        ≤ (1 - 1 / 2 ^ 53) * ((1 - 1 / 2 ^ 53) / (1 + 1 / 2 ^ 53)) * r :=
          mul_le_mul_of_nonneg_right hk2 hr0.le
      _ = (1 - 1 / 2 ^ 53) * ((1 - 1 / 2 ^ 53) / (1 + 1 / 2 ^ 53) * r) := by ring
      _ ≤ (1 - 1 / 2 ^ 53) * (a / b) := mul_le_mul_of_nonneg_left hqlo (by norm_num)
      _ ≤ roundMag (a / b) := hp2
  rw [abs_le]
  have h4r : (4 / 2 ^ 53 : ℚ) * r ≤ 4 / 2 ^ 53 := by
    have : (0 : ℚ) ≤ 4 / 2 ^ 53 := by norm_num
    nlinarith
  constructor <;> linarith

end Binary64

/-! ## Lemmas on rounded throughputs and their rounded sum -/

namespace Binary64

theorem eps_pos : 0 < eps := by unfold eps; norm_num

theorem eps_lt : eps < 1 / 2 ^ 52 := by unfold eps; norm_num

/-- A value of the normal range rounds to a finite value of the normal
range, within relative `eps`. -/
theorem round_rel {v : ℚ} (h1 : pow2 (-1022) ≤ v) (h2 : v < pow2 1023) :
    ∃ y : ℚ, round v = Dbl.fin y ∧ (1 - eps) * v ≤ y ∧ y ≤ (1 + eps) * v ∧
      pow2 (-1022) ≤ y := by
  have hv : 0 < v := lt_of_lt_of_le (pow2_pos _) h1
  refine ⟨roundMag v, round_eq_fin hv.le h2, ?_, ?_, ?_⟩
  · exact (roundMag_rel h1).1
  · exact (roundMag_rel h1).2
  · exact le_trans (pow2_le_pow2 (expo_ge_of_pow2_le h1)) (roundMag_ge_bottom h1)

theorem one_sub_eps_pow_ge (k : ℕ) : 1 - (k : ℚ) * eps ≤ (1 - eps) ^ k := by
  have h := one_add_mul_le_pow (show (-2 : ℚ) ≤ -eps by
    have := eps_lt
    linarith) k
  have e1 : (1 : ℚ) + (k : ℚ) * -eps = 1 - (k : ℚ) * eps := by ring
  have e2 : (1 : ℚ) + -eps = 1 - eps := by ring
  rwa [e1, e2] at h

theorem one_add_eps_pow_le (k : ℕ) (hk : 2 * (k : ℚ) * eps ≤ 1) :
    (1 + eps) ^ k ≤ 1 + 2 * (k : ℚ) * eps := by
  induction k with
  | zero => simp
  | succ n ih =>
    have hn : 2 * (n : ℚ) * eps ≤ 1 := by
      have := eps_pos
      push_cast at hk
      nlinarith
    have h1 := ih hn
    have he := eps_pos
    rw [pow_succ]
    push_cast
    have h2 : (1 + eps) ^ n * (1 + eps) ≤ (1 + 2 * (n : ℚ) * eps) * (1 + eps) :=
      mul_le_mul_of_nonneg_right h1 (by linarith)
    have h3 : 2 * (n : ℚ) * eps * eps ≤ eps := by
      have : 2 * (n : ℚ) * eps * eps ≤ 1 * eps := mul_le_mul_of_nonneg_right hn he.le
      linarith
    nlinarith

theorem one_sub_eps_pos : 0 < 1 - eps := by
  have := eps_lt
  have : (1 : ℚ) / 2 ^ 52 < 1 := by norm_num
  linarith

/-- The per-flow throughput `(b * 8.0) / T` of a 64-bit byte count, for a
positive finite duration and an exact value `8 b / T` of at most `2^1021`: a
finite double, zero or in the normal range, within three roundings of
`8 b / T`. -/
theorem throughput_rel (b : ℕ) (hb : b < 2 ^ 64) (T : ℚ) (hTpos : 0 < T)
    (hT2 : T < 2 ^ 1024) (hS : 8 * (b : ℚ) / T ≤ 2 ^ 1021) :
    ∃ x : ℚ, throughput b T = Dbl.fin x ∧
      (1 - eps) ^ 3 * (8 * (b : ℚ) / T) ≤ x ∧ x ≤ (1 + eps) ^ 3 * (8 * (b : ℚ) / T) ∧
      (x = 0 ∨ pow2 (-1022) ≤ x) := by
  rcases Nat.eq_zero_or_pos b with h0 | hpos
  · subst h0
    refine ⟨0, ?_, by simp, by simp, Or.inl rfl⟩
    unfold throughput ofNat mul div
    have hz : round ((0 : ℕ) : ℚ) = Dbl.fin 0 := by simpa using round_zero
    rw [hz]
    simp only [Dbl.mul, zero_mul, rnd, round_zero, Dbl.div, hTpos.ne', if_false, zero_div]
  have hB1 : (1 : ℚ) ≤ b := by exact_mod_cast hpos
  have hB2 : (b : ℚ) < 2 ^ 64 := by exact_mod_cast hb
  have he := eps_pos
  have he2 := eps_lt
  have hsmall : (1 : ℚ) / 2 ^ 52 < 1 / 4 := by norm_num
  have hom := one_sub_eps_pos
  have hop : (0 : ℚ) ≤ 1 + eps := by linarith
  -- conversion
  obtain ⟨β, hβ, hβ1, hβ2, _⟩ := round_rel (v := (b : ℚ))
    (le_trans pow2_neg_1022_le_one hB1) (natCast_lt_pow2_1023 b (lt_trans hb (by norm_num)))
  have hβlo : (3 / 4 : ℚ) ≤ β := by
    have : (1 - eps) * 1 ≤ (1 - eps) * (b : ℚ) := mul_le_mul_of_nonneg_left hB1 hom.le
    linarith
  have hβhi : β ≤ 2 ^ 65 := by
    have h1 : (1 + eps) * (b : ℚ) ≤ (1 + eps) * 2 ^ 64 :=
      mul_le_mul_of_nonneg_left hB2.le hop
    have h2 : (1 + eps) * (2 : ℚ) ^ 64 ≤ 2 * 2 ^ 64 :=
      mul_le_mul_of_nonneg_right (by linarith) (by positivity)
    have h3 : (2 : ℚ) * 2 ^ 64 = 2 ^ 65 := by norm_num
    linarith
  -- multiplication by 8.0
  have hm1 : pow2 (-1022) ≤ β * 8 := by
    have := pow2_neg_1022_le_one
    linarith
  have hm2 : β * 8 < pow2 1023 := by
    have h := natCast_lt_pow2_1023 (2 ^ 68) (by norm_num)
    push_cast at h
    have : β * 8 ≤ 2 ^ 68 := by
      have : (2 : ℚ) ^ 65 * 8 = 2 ^ 68 := by norm_num
      linarith
    linarith
  obtain ⟨γ, hγ, hγ1, hγ2, _⟩ := round_rel hm1 hm2
  have hγlo : (4 : ℚ) ≤ γ := by
    have h1 : (1 - eps) * 6 ≤ (1 - eps) * (β * 8) :=
      mul_le_mul_of_nonneg_left (by linarith) hom.le
    linarith
  have hγup : γ ≤ (1 + eps) * ((1 + eps) * (b : ℚ) * 8) := by
    have : (1 + eps) * (β * 8) ≤ (1 + eps) * ((1 + eps) * (b : ℚ) * 8) :=
      mul_le_mul_of_nonneg_left (by linarith) hop
    linarith
  have hγdn : (1 - eps) * ((1 - eps) * (b : ℚ) * 8) ≤ γ := by
    have : (1 - eps) * ((1 - eps) * (b : ℚ) * 8) ≤ (1 - eps) * (β * 8) :=
      mul_le_mul_of_nonneg_left (by linarith) hom.le
    linarith
  have hγTup : γ / T ≤ (1 + eps) * ((1 + eps) * (8 * (b : ℚ) / T)) := by
    have h1 : γ / T ≤ (1 + eps) * ((1 + eps) * (b : ℚ) * 8) / T :=
      div_le_div_of_nonneg_right hγup hTpos.le
    have e : (1 + eps) * ((1 + eps) * (b : ℚ) * 8) / T =
        (1 + eps) * ((1 + eps) * (8 * (b : ℚ) / T)) := by ring
    rw [e] at h1
    exact h1
  have hγTdn : (1 - eps) * ((1 - eps) * (8 * (b : ℚ) / T)) ≤ γ / T := by
    have h1 : (1 - eps) * ((1 - eps) * (b : ℚ) * 8) / T ≤ γ / T :=
      div_le_div_of_nonneg_right hγdn hTpos.le
    have e : (1 - eps) * ((1 - eps) * (b : ℚ) * 8) / T =
        (1 - eps) * ((1 - eps) * (8 * (b : ℚ) / T)) := by ring
    rw [e] at h1
    exact h1
  -- division by the duration
  have hd1 : pow2 (-1022) ≤ γ / T := by
    have h2 : pow2 (-1022) = 4 / 2 ^ 1024 := by unfold pow2; norm_num
    have h3 : (4 : ℚ) / 2 ^ 1024 ≤ γ / T :=
      div_le_div₀ (by linarith) hγlo hTpos hT2.le
    rw [h2]
    exact h3
  have hd2 : γ / T < pow2 1023 := by
    have hX0 : 0 ≤ 8 * (b : ℚ) / T :=
      div_nonneg (mul_nonneg (by norm_num) (Nat.cast_nonneg b)) hTpos.le
    have h1 : (1 + eps) * (8 * (b : ℚ) / T) ≤ 2 * (8 * (b : ℚ) / T) :=
      mul_le_mul_of_nonneg_right (by linarith) hX0
    have h2 : (1 + eps) * ((1 + eps) * (8 * (b : ℚ) / T)) ≤
        (1 + eps) * (2 * (8 * (b : ℚ) / T)) := mul_le_mul_of_nonneg_left h1 hop
    have h3 : (1 + eps) * (2 * (8 * (b : ℚ) / T)) ≤ (3 / 2) * (2 * (8 * (b : ℚ) / T)) :=
      mul_le_mul_of_nonneg_right (by linarith) (by linarith)
    have h4 : pow2 1023 = 4 * 2 ^ 1021 := by unfold pow2; norm_num
    rw [h4]
    have : (0 : ℚ) < 2 ^ 1021 := by positivity
    linarith
  obtain ⟨x, hx, hx1, hx2, hx3⟩ := round_rel hd1 hd2
  refine ⟨x, ?_, ?_, ?_, Or.inr hx3⟩
  · unfold throughput ofNat mul div
    rw [hβ]
    simp only [Dbl.mul, rnd, hγ, Dbl.div, hTpos.ne', if_false, hx]
  · have : (1 - eps) * ((1 - eps) * ((1 - eps) * (8 * (b : ℚ) / T))) ≤ (1 - eps) * (γ / T) :=
      mul_le_mul_of_nonneg_left hγTdn hom.le
    have e : (1 - eps) ^ 3 * (8 * (b : ℚ) / T) =
        (1 - eps) * ((1 - eps) * ((1 - eps) * (8 * (b : ℚ) / T))) := by ring
    rw [e]
    linarith
  · have : (1 + eps) * (γ / T) ≤ (1 + eps) * ((1 + eps) * ((1 + eps) * (8 * (b : ℚ) / T))) :=
      mul_le_mul_of_nonneg_left hγTup hop
    have e : (1 + eps) ^ 3 * (8 * (b : ℚ) / T) =
        (1 + eps) * ((1 + eps) * ((1 + eps) * (8 * (b : ℚ) / T))) := by ring
    rw [e]
    linarith

end Binary64

namespace Binary64

/-- Rounding of a non-negative value that is zero or in the normal range. -/
theorem round_rel_or_zero {v : ℚ} (h1 : v = 0 ∨ pow2 (-1022) ≤ v) (h2 : v < pow2 1023) :
    ∃ y : ℚ, round v = Dbl.fin y ∧ (1 - eps) * v ≤ y ∧ y ≤ (1 + eps) * v ∧
      (y = 0 ∨ pow2 (-1022) ≤ y) := by
  rcases h1 with h0 | hn
  · subst h0
    exact ⟨0, round_zero, by simp, by simp, Or.inl rfl⟩
  · obtain ⟨y, hy, hy1, hy2, hy3⟩ := round_rel hn h2
    exact ⟨y, hy, hy1, hy2, Or.inr hy3⟩

theorem sum_exact_throughput (bs : List ℕ) (T : ℚ) :
    (bs.map (fun (b : ℕ) => 8 * (b : ℚ) / T)).sum = 8 * ((bs.sum : ℕ) : ℚ) / T := by
  induction bs with
  | nil => simp
  | cons b bs ih =>
    simp only [List.map_cons, List.sum_cons, ih, Nat.cast_add]
    ring

theorem le_sum_of_mem (bs : List ℕ) : ∀ b ∈ bs, b ≤ bs.sum := by
  induction bs with
  | nil => simp
  | cons c cs ih =>
    intro b hb
    simp only [List.sum_cons]
    rcases List.mem_cons.mp hb with rfl | hb
    · omega
    · have := ih b hb
      omega

theorem sum_exact_nonneg (bs : List ℕ) (T : ℚ) (hT : 0 < T) :
    0 ≤ (bs.map (fun (b : ℕ) => 8 * (b : ℚ) / T)).sum := by
  rw [sum_exact_throughput]
  positivity

/-- The running sum of line 202 over rounded throughputs: after `j` additions
it is within `k + j` roundings of the exact sum, when it started within `k`
roundings of `P`. -/
theorem foldl_add_rel (T : ℚ) (hTpos : 0 < T) (hT2 : T < 2 ^ 1024) (bs : List ℕ)
    (hbs : ∀ b ∈ bs, b < 2 ^ 64 ∧ 8 * (b : ℚ) / T ≤ 2 ^ 1021) (s P : ℚ) (k : ℕ) (hk : 3 ≤ k) (hP : 0 ≤ P)
    (hlo : (1 - eps) ^ k * P ≤ s) (hhi : s ≤ (1 + eps) ^ k * P)
    (hs : s = 0 ∨ pow2 (-1022) ≤ s)
    (hov : (1 + eps) ^ (k + bs.length) * (P + (bs.map (fun (b : ℕ) => 8 * (b : ℚ) / T)).sum) <
      pow2 1023) :
    ∃ s' : ℚ, (bs.map (fun b => throughput b T)).foldl add (Dbl.fin s) = Dbl.fin s' ∧
      (1 - eps) ^ (k + bs.length) * (P + (bs.map (fun (b : ℕ) => 8 * (b : ℚ) / T)).sum) ≤ s' ∧
      s' ≤ (1 + eps) ^ (k + bs.length) * (P + (bs.map (fun (b : ℕ) => 8 * (b : ℚ) / T)).sum) := by
  have he := eps_pos
  have hom := one_sub_eps_pos
  have hop : (1 : ℚ) ≤ 1 + eps := by linarith
  induction bs generalizing s P k with
  | nil =>
    refine ⟨s, rfl, ?_, ?_⟩
    · simpa using hlo
    · simpa using hhi
  | cons b bs ih =>
    obtain ⟨x, hx, hx1, hx2, hx3⟩ :=
      throughput_rel b (hbs b (List.mem_cons_self _ _)).1 T hTpos hT2
        (hbs b (List.mem_cons_self _ _)).2
    have hX : 0 ≤ 8 * (b : ℚ) / T :=
      div_nonneg (mul_nonneg (by norm_num) (Nat.cast_nonneg b)) hTpos.le
    have hrest := sum_exact_nonneg bs T hTpos
    have hs0 : 0 ≤ s := le_trans (mul_nonneg (pow_nonneg hom.le k) hP) hlo
    have hx0 : 0 ≤ x := le_trans (mul_nonneg (pow_nonneg hom.le 3) hX) hx1
    have hpow_hi : (1 + eps) ^ 3 ≤ (1 + eps) ^ k := pow_le_pow_right₀ hop hk
    have hpow_lo : (1 - eps) ^ k ≤ (1 - eps) ^ 3 :=
      pow_le_pow_of_le_one hom.le (by linarith) hk
    have hvhi : s + x ≤ (1 + eps) ^ k * (P + 8 * (b : ℚ) / T) := by
      have : (1 + eps) ^ 3 * (8 * (b : ℚ) / T) ≤ (1 + eps) ^ k * (8 * (b : ℚ) / T) :=
        mul_le_mul_of_nonneg_right hpow_hi hX
      rw [mul_add]
      linarith
    have hvlo : (1 - eps) ^ k * (P + 8 * (b : ℚ) / T) ≤ s + x := by
      have : (1 - eps) ^ k * (8 * (b : ℚ) / T) ≤ (1 - eps) ^ 3 * (8 * (b : ℚ) / T) :=
        mul_le_mul_of_nonneg_right hpow_lo hX
      rw [mul_add]
      linarith
    have hlen : k + (b :: bs).length = k + 1 + bs.length := by
      simp only [List.length_cons]
      omega
    have hsum : P + ((b :: bs).map (fun (b : ℕ) => 8 * (b : ℚ) / T)).sum =
        P + 8 * (b : ℚ) / T + (bs.map (fun (b : ℕ) => 8 * (b : ℚ) / T)).sum := by
      simp only [List.map_cons, List.sum_cons]
      ring
    rw [hlen, hsum] at hov ⊢
    have hvov : s + x < pow2 1023 := by
      have h1 : (1 + eps) ^ k ≤ (1 + eps) ^ (k + 1 + bs.length) :=
        pow_le_pow_right₀ hop (by omega)
      have hPX : 0 ≤ P + 8 * (b : ℚ) / T := by linarith
      have h2 : (1 + eps) ^ k * (P + 8 * (b : ℚ) / T) ≤
          (1 + eps) ^ (k + 1 + bs.length) * (P + 8 * (b : ℚ) / T) :=
        mul_le_mul_of_nonneg_right h1 hPX
      have h3 : (1 + eps) ^ (k + 1 + bs.length) * (P + 8 * (b : ℚ) / T) ≤
          (1 + eps) ^ (k + 1 + bs.length) *
            (P + 8 * (b : ℚ) / T + (bs.map (fun (b : ℕ) => 8 * (b : ℚ) / T)).sum) :=
        mul_le_mul_of_nonneg_left (by linarith) (pow_nonneg (by linarith) _)
      linarith
    have hvn : s + x = 0 ∨ pow2 (-1022) ≤ s + x := by
      rcases hs with hs | hs
      · rcases hx3 with hx3 | hx3
        · left
          rw [hs, hx3, add_zero]
        · right
          linarith
      · right
        linarith
    obtain ⟨y, hy, hy1, hy2, hy3⟩ := round_rel_or_zero hvn hvov
    have hstep : add (Dbl.fin s) (throughput b T) = Dbl.fin y := by
      rw [hx]
      unfold add
      simp only [Dbl.add, rnd, hy]
    simp only [List.map_cons, List.foldl_cons, hstep]
    apply ih (fun c hc => hbs c (List.mem_cons_of_mem _ hc)) y (P + 8 * (b : ℚ) / T) (k + 1)
      (by omega) (by linarith)
    · have : (1 - eps) * ((1 - eps) ^ k * (P + 8 * (b : ℚ) / T)) ≤ (1 - eps) * (s + x) :=
        mul_le_mul_of_nonneg_left hvlo hom.le
      rw [pow_succ]
      linarith
    · have : (1 + eps) * (s + x) ≤ (1 + eps) * ((1 + eps) ^ k * (P + 8 * (b : ℚ) / T)) :=
        mul_le_mul_of_nonneg_left hvhi (by linarith)
      rw [pow_succ]
      linarith
    · exact hy3
    · exact hov

end Binary64

/-! ## C1: loss ratio against 1 - PDR -/

/-- C1, as stated, fails: for the empty flow record set (sink port 50000,
60 s) both guards `txPackets > 0` are false, so lossRatio is 0 and pdr is 0,
while 1 - pdr is 1. -/
theorem lossRatio_ne_one_sub_pdr_of_no_flow :
    (Binary64.computeReport [] 50000 60).lossRatio = Dbl.fin 0 ∧
      Binary64.sub (Dbl.fin 1) (Binary64.computeReport [] 50000 60).pdr = Dbl.fin 1 ∧
      (Binary64.computeReport [] 50000 60).lossRatio ≠
        Binary64.sub (Dbl.fin 1) (Binary64.computeReport [] 50000 60).pdr := by
  decide!

/-- Second way C1 fails: with more packets received than sent (one flow,
tx = 4096, rx = 6144) the `uint64_t` subtraction wraps to `2^64 - 2048`;
lossRatio is `(2^53 - 1) / 2` and 1 - pdr is `-1/2`. -/
theorem lossRatio_wraps_of_rx_gt_tx :
    (Binary64.computeReport [⟨50000, ⟨4096, 6144, 0, 0, 0, 0⟩⟩] 50000 60).lossRatio =
        Dbl.fin ((2 ^ 53 - 1) / 2) ∧
      Binary64.sub (Dbl.fin 1)
          (Binary64.computeReport [⟨50000, ⟨4096, 6144, 0, 0, 0, 0⟩⟩] 50000 60).pdr =
        Dbl.fin (-1 / 2) := by
  decide!

/-- Third way C1 fails: the two quotients are rounded separately.  With one
flow, tx = 13 and rx = 10, lossRatio is the double nearest to 3/13 and
`1.0 - pdr` is one spacing below it. -/
theorem lossRatio_ne_one_sub_pdr_by_rounding :
    (Binary64.computeReport [⟨50000, ⟨13, 10, 832, 640, 1, 1⟩⟩] 50000 60).lossRatio =
        Dbl.fin (4157168886803535 / 2 ^ 54) ∧
      Binary64.sub (Dbl.fin 1)
          (Binary64.computeReport [⟨50000, ⟨13, 10, 832, 640, 1, 1⟩⟩] 50000 60).pdr =
        Dbl.fin (4157168886803534 / 2 ^ 54) := by
  decide!

/-- C1, amended: when the accumulated txPackets total is positive and the
accumulated rxPackets total does not exceed it, lossRatio and pdr are finite
doubles in [0,1] and lossRatio differs from 1 - pdr by at most `2^-50`. -/
theorem lossRatio_near_one_sub_pdr (stats : List Flow) (port : Nat) (simTime : ℚ)
    (htx : 0 < (Binary64.accumulate stats port simTime).txPackets)
    (hrx : (Binary64.accumulate stats port simTime).rxPackets ≤
      (Binary64.accumulate stats port simTime).txPackets) :
    ∃ l p : ℚ,
      (Binary64.computeReport stats port simTime).lossRatio = Dbl.fin l ∧
      (Binary64.computeReport stats port simTime).pdr = Dbl.fin p ∧
      0 ≤ l ∧ l ≤ 1 ∧ 0 ≤ p ∧ p ≤ 1 ∧ |l - (1 - p)| ≤ 1 / 2 ^ 50 := by
  have hlt := Binary64.txPackets_lt stats port simTime
  simp only [Binary64.computeReport, Binary64.deriveReport]
  generalize (Binary64.accumulate stats port simTime).txPackets = tx at htx hrx hlt
  generalize (Binary64.accumulate stats port simTime).rxPackets = rx at hrx
  have hsub : u64 (tx + 2 ^ 64 - rx) = tx - rx := by
    unfold u64
    have : tx + 2 ^ 64 - rx = (tx - rx) + 2 ^ 64 := by omega
    rw [this, Nat.add_mod_right]
    exact Nat.mod_eq_of_lt (by omega)
  obtain ⟨l, hl, hl0, hl1, hle⟩ := Binary64.div_ofNat_near (tx - rx) tx htx (by omega) hlt
  obtain ⟨p, hp, hp0, hp1, hpe⟩ := Binary64.div_ofNat_near rx tx htx hrx hlt
  refine ⟨l, p, ?_, ?_, hl0, hl1, hp0, hp1, ?_⟩
  · unfold Binary64.lossRatio
    rw [if_pos htx, hsub, hl]
  · unfold Binary64.pdr
    rw [if_pos htx, hp]
  · have h0 : (tx : ℚ) ≠ 0 := by exact_mod_cast htx.ne'
    have hid : ((tx - rx : ℕ) : ℚ) / (tx : ℚ) = 1 - (rx : ℚ) / (tx : ℚ) := by
      rw [Nat.cast_sub hrx]
      field_simp
    rw [hid] at hle
    rw [abs_le] at hle hpe ⊢
    constructor <;> norm_num at hle hpe ⊢ <;> linarith [hle.1, hle.2, hpe.1, hpe.2]

/-- Witness for C1 amended: three flows, one to another port, 10 of 13
packets delivered. -/
theorem lossRatio_near_one_sub_pdr_witness :
    ∃ l p : ℚ,
      (Binary64.computeReport [⟨50000, ⟨8, 7, 512, 448, 1, 1⟩⟩, ⟨9, ⟨4, 4, 99, 99, 0, 0⟩⟩,
          ⟨50000, ⟨5, 3, 320, 192, 2, 1⟩⟩] 50000 60).lossRatio = Dbl.fin l ∧
      (Binary64.computeReport [⟨50000, ⟨8, 7, 512, 448, 1, 1⟩⟩, ⟨9, ⟨4, 4, 99, 99, 0, 0⟩⟩,
          ⟨50000, ⟨5, 3, 320, 192, 2, 1⟩⟩] 50000 60).pdr = Dbl.fin p ∧
      0 ≤ l ∧ l ≤ 1 ∧ 0 ≤ p ∧ p ≤ 1 ∧ |l - (1 - p)| ≤ 1 / 2 ^ 50 :=
  lossRatio_near_one_sub_pdr _ 50000 60 (by decide!) (by decide!)

/-! ## C6: aggregate throughput against the per-flow throughputs -/

/-- C6, as stated, fails: two flows to the sink port with rxBytes = 2^63
each and simulated duration 1 s.  The `uint64_t` total wraps to 0, so the
aggregate throughput is 0, while the per-flow throughputs sum to 2^67. -/
theorem aggThroughput_ne_sum_of_wrap :
    (Binary64.computeReport [⟨50000, ⟨1, 1, 2 ^ 63, 2 ^ 63, 0, 0⟩⟩,
          ⟨50000, ⟨1, 1, 2 ^ 63, 2 ^ 63, 0, 0⟩⟩] 50000 1).aggThroughput = Dbl.fin 0 ∧
      Binary64.sum (Binary64.accumulate [⟨50000, ⟨1, 1, 2 ^ 63, 2 ^ 63, 0, 0⟩⟩,
          ⟨50000, ⟨1, 1, 2 ^ 63, 2 ^ 63, 0, 0⟩⟩] 50000 1).perNodeThroughput =
        Dbl.fin (2 ^ 67) ∧
      (Binary64.computeReport [⟨50000, ⟨1, 1, 2 ^ 63, 2 ^ 63, 0, 0⟩⟩,
          ⟨50000, ⟨1, 1, 2 ^ 63, 2 ^ 63, 0, 0⟩⟩] 50000 1).aggThroughput ≠
        Binary64.sum (Binary64.accumulate [⟨50000, ⟨1, 1, 2 ^ 63, 2 ^ 63, 0, 0⟩⟩,
          ⟨50000, ⟨1, 1, 2 ^ 63, 2 ^ 63, 0, 0⟩⟩] 50000 1).perNodeThroughput := by
  decide!

/-- Second way C6 fails, without any wrap: two flows with 448 and 192 received
bytes over 60 s.  The aggregate `640 * 8.0 / 60` is 85.33333333333333, the
rounded sum of the two rounded per-flow throughputs is one spacing above,
85.33333333333334. -/
theorem aggThroughput_ne_sum_by_rounding :
    (Binary64.computeReport [⟨50000, ⟨8, 7, 512, 448, 1, 1⟩⟩,
          ⟨50000, ⟨5, 3, 320, 192, 2, 1⟩⟩] 50000 60).aggThroughput =
        Dbl.fin (6004799503160661 / 2 ^ 46) ∧
      Binary64.sum (Binary64.accumulate [⟨50000, ⟨8, 7, 512, 448, 1, 1⟩⟩,
          ⟨50000, ⟨5, 3, 320, 192, 2, 1⟩⟩] 50000 60).perNodeThroughput =
        Dbl.fin (6004799503160662 / 2 ^ 46) := by
  decide!

/-- C6, amended: for a positive finite simulated duration, fewer than `2^32`
flows to the sink port, rxBytes of these flows adding up to less than `2^64`
(the counter does not wrap) and an exact throughput `8 * total rxBytes /
simTime` of at most `2^1021` (no overflow), perNodeThroughput holds each such
flow's `rxBytes * 8.0 / simTime` in order, and the aggregate throughput and
the sum of that list are finite doubles that differ by at most
`(n + 3) * 2^-51` times the exact throughput, `n` being the number of those
flows. -/
theorem aggThroughput_near_sum (stats : List Flow) (port : Nat) (simTime : ℚ)
    (hT0 : 0 < simTime) (hT2 : simTime < 2 ^ 1024)
    (hlen : (toPort stats port).length < 2 ^ 32)
    (hsum : ((toPort stats port).map (fun f => f.second.rxBytes)).sum < 2 ^ 64)
    (hmax : 8 * ((((toPort stats port).map (fun f => f.second.rxBytes)).sum : ℕ) : ℚ) /
      simTime ≤ 2 ^ 1021) :
    (Binary64.accumulate stats port simTime).perNodeThroughput =
        (toPort stats port).map (fun f => Binary64.throughput f.second.rxBytes simTime) ∧
      ∃ a s : ℚ,
        (Binary64.computeReport stats port simTime).aggThroughput = Dbl.fin a ∧
        Binary64.sum (Binary64.accumulate stats port simTime).perNodeThroughput = Dbl.fin s ∧
        |a - s| ≤ (((toPort stats port).length : ℚ) + 3) / 2 ^ 51 *
          (8 * ((((toPort stats port).map (fun f => f.second.rxBytes)).sum : ℕ) : ℚ) /
            simTime) := by
  refine ⟨Binary64.accumulate_throughputs stats port simTime, ?_⟩
  have he := Binary64.eps_pos
  have hom := Binary64.one_sub_eps_pos
  have hop : (1 : ℚ) ≤ 1 + Binary64.eps := by linarith
  set bs := (toPort stats port).map (fun f => f.second.rxBytes) with hbs
  have hn : bs.length = (toPort stats port).length := by simp [hbs]
  set n := (toPort stats port).length with hndef
  set B := bs.sum with hB
  set S := 8 * (B : ℚ) / simTime with hS
  have hS0 : 0 ≤ S := div_nonneg (mul_nonneg (by norm_num) (Nat.cast_nonneg B)) hT0.le
  -- the aggregate
  have hrx : (Binary64.accumulate stats port simTime).rxBytes = B := by
    rw [Binary64.rxBytes_eq]
    exact Nat.mod_eq_of_lt hsum
  obtain ⟨a, ha, ha1, ha2, _⟩ := Binary64.throughput_rel B hsum simTime hT0 hT2 hmax
  -- powers of the rounding factors
  have hk : 2 * ((3 + n : ℕ) : ℚ) * Binary64.eps ≤ 1 := by
    have h1 : ((3 + n : ℕ) : ℚ) ≤ 2 ^ 33 := by
      have : 3 + n ≤ 2 ^ 33 := by omega
      exact_mod_cast this
    have h2 : 2 * ((3 + n : ℕ) : ℚ) * Binary64.eps ≤ 2 * 2 ^ 33 * Binary64.eps :=
      mul_le_mul_of_nonneg_right (by linarith) he.le
    have h3 : 2 * (2 : ℚ) ^ 33 * Binary64.eps ≤ 1 := by
      unfold Binary64.eps
      norm_num
    linarith
  have hup := Binary64.one_add_eps_pow_le (3 + n) hk
  have hdn := Binary64.one_sub_eps_pow_ge (3 + n)
  have hup2 : (1 + Binary64.eps) ^ (3 + n) ≤ 2 := by linarith
  -- the sum of the list
  have hov : (1 + Binary64.eps) ^ (3 + bs.length) *
      (0 + (bs.map (fun (b : ℕ) => 8 * (b : ℚ) / simTime)).sum) < Binary64.pow2 1023 := by
    rw [hn, Binary64.sum_exact_throughput, zero_add]
    have h1 : (1 + Binary64.eps) ^ (3 + n) * S ≤ 2 * S :=
      mul_le_mul_of_nonneg_right hup2 hS0
    have h4 : Binary64.pow2 1023 = 4 * 2 ^ 1021 := by unfold Binary64.pow2; norm_num
    rw [h4]
    have : (0 : ℚ) < 2 ^ 1021 := by positivity
    linarith
  have hbsb : ∀ b ∈ bs, b < 2 ^ 64 ∧ 8 * (b : ℚ) / simTime ≤ 2 ^ 1021 := by
    intro b hb
    have hle : b ≤ B := Binary64.le_sum_of_mem bs b hb
    refine ⟨lt_of_le_of_lt hle hsum, le_trans ?_ hmax⟩
    apply div_le_div_of_nonneg_right _ hT0.le
    have : (b : ℚ) ≤ B := by exact_mod_cast hle
    linarith
  obtain ⟨s, hs, hs1, hs2⟩ := Binary64.foldl_add_rel simTime hT0 hT2 bs hbsb 0 0 3
    le_rfl le_rfl (by simp) (by simp) (Or.inl rfl) hov
  rw [hn, Binary64.sum_exact_throughput, zero_add] at hs1 hs2
  refine ⟨a, s, ?_, ?_, ?_⟩
  · show Binary64.throughput (Binary64.accumulate stats port simTime).rxBytes simTime = _
    rw [hrx, ha]
  · rw [Binary64.accumulate_throughputs]
    unfold Binary64.sum
    rw [← hs, hbs, List.map_map]
    rfl
  · -- both values lie between (1 - eps)^(3+n) S and (1 + eps)^(3+n) S
    have ha1' : (1 - Binary64.eps) ^ (3 + n) * S ≤ a := by
      have : (1 - Binary64.eps) ^ (3 + n) ≤ (1 - Binary64.eps) ^ 3 :=
        pow_le_pow_of_le_one hom.le (by linarith) (by omega)
      have := mul_le_mul_of_nonneg_right this hS0
      linarith
    have ha2' : a ≤ (1 + Binary64.eps) ^ (3 + n) * S := by
      have : (1 + Binary64.eps) ^ 3 ≤ (1 + Binary64.eps) ^ (3 + n) :=
        pow_le_pow_right₀ hop (by omega)
      have := mul_le_mul_of_nonneg_right this hS0
      linarith
    have hwidth : (1 + Binary64.eps) ^ (3 + n) * S - (1 - Binary64.eps) ^ (3 + n) * S ≤
        ((n : ℚ) + 3) / 2 ^ 51 * S := by
      have h1 : (1 + Binary64.eps) ^ (3 + n) - (1 - Binary64.eps) ^ (3 + n) ≤
          3 * ((3 + n : ℕ) : ℚ) * Binary64.eps := by linarith
      have h2 : 3 * ((3 + n : ℕ) : ℚ) * Binary64.eps ≤ ((n : ℚ) + 3) / 2 ^ 51 := by
        unfold Binary64.eps
        push_cast
        have : (0 : ℚ) ≤ n := Nat.cast_nonneg n
        norm_num
        linarith
      have h3 := mul_le_mul_of_nonneg_right (le_trans h1 h2) hS0
      linarith
    rw [abs_le]
    constructor <;> linarith

/-- Witness for C6 amended: two flows to the sink port and one to another
port, 60 s. -/
theorem aggThroughput_near_sum_witness :
    (Binary64.accumulate [⟨50000, ⟨8, 7, 512, 448, 1, 1⟩⟩, ⟨9, ⟨4, 4, 99, 99, 0, 0⟩⟩,
          ⟨50000, ⟨5, 3, 320, 192, 2, 1⟩⟩] 50000 60).perNodeThroughput =
        (toPort [⟨50000, ⟨8, 7, 512, 448, 1, 1⟩⟩, ⟨9, ⟨4, 4, 99, 99, 0, 0⟩⟩,
          ⟨50000, ⟨5, 3, 320, 192, 2, 1⟩⟩] 50000).map
          (fun f => Binary64.throughput f.second.rxBytes 60) ∧
      ∃ a s : ℚ,
        (Binary64.computeReport [⟨50000, ⟨8, 7, 512, 448, 1, 1⟩⟩, ⟨9, ⟨4, 4, 99, 99, 0, 0⟩⟩,
          ⟨50000, ⟨5, 3, 320, 192, 2, 1⟩⟩] 50000 60).aggThroughput = Dbl.fin a ∧
        Binary64.sum (Binary64.accumulate [⟨50000, ⟨8, 7, 512, 448, 1, 1⟩⟩,
          ⟨9, ⟨4, 4, 99, 99, 0, 0⟩⟩, ⟨50000, ⟨5, 3, 320, 192, 2, 1⟩⟩] 50000 60).perNodeThroughput
          = Dbl.fin s ∧
        |a - s| ≤ (((toPort [⟨50000, ⟨8, 7, 512, 448, 1, 1⟩⟩, ⟨9, ⟨4, 4, 99, 99, 0, 0⟩⟩,
          ⟨50000, ⟨5, 3, 320, 192, 2, 1⟩⟩] 50000).length : ℚ) + 3) / 2 ^ 51 *
          (8 * ((((toPort [⟨50000, ⟨8, 7, 512, 448, 1, 1⟩⟩, ⟨9, ⟨4, 4, 99, 99, 0, 0⟩⟩,
            ⟨50000, ⟨5, 3, 320, 192, 2, 1⟩⟩] 50000).map
              (fun f => f.second.rxBytes)).sum : ℕ) : ℚ) / 60) :=
  aggThroughput_near_sum _ 50000 60 (by norm_num) (by norm_num) (by decide) (by decide)
    (by
      have h : (((toPort [⟨50000, ⟨8, 7, 512, 448, 1, 1⟩⟩, ⟨9, ⟨4, 4, 99, 99, 0, 0⟩⟩,
          ⟨50000, ⟨5, 3, 320, 192, 2, 1⟩⟩] 50000).map (fun f => f.second.rxBytes)).sum) = 640 := by
        decide
      rw [h]
      norm_num)

/-! ## C8: start/stop windows of the scheduled sources -/

/-- C8, as stated, fails: with `nSensors = 5` and `simTime = 10` the program
schedules all six sources, and the attacker gets start 5 and stop
`10 - 5.0 = 5`, so a scheduled source has start >= stop; nothing was
rejected. -/
theorem schedule_has_inverted_window :
    schedule 5 10 =
        some ((List.range 5).map (fun i => sensorWindow i 10) ++ [attackerWindow 10]) ∧
      (attackerWindow 10).start = Dbl.fin 5 ∧ (attackerWindow 10).stop = Dbl.fin 5 ∧
      Dbl.lt (attackerWindow 10).start (attackerWindow 10).stop = false := by
  decide!

/-- Rounding decides the sensor windows: for `simTime` the double nearest to
10.4 (a little above 52/5), sensor 47 gets start `1.0 + 47 * 0.2` rounded to
that same double, so start = stop, although `1 + 47/5 < simTime` exactly. -/
theorem sensor_start_eq_stop_by_rounding :
    Binary64.round (5854679515581645 / 2 ^ 49) = Dbl.fin (5854679515581645 / 2 ^ 49) ∧
      (sensorWindow 47 (5854679515581645 / 2 ^ 49)).start =
        Dbl.fin (5854679515581645 / 2 ^ 49) ∧
      (sensorWindow 47 (5854679515581645 / 2 ^ 49)).stop =
        Dbl.fin (5854679515581645 / 2 ^ 49) ∧
      (1 + 47 / 5 : ℚ) < 5854679515581645 / 2 ^ 49 := by
  decide!

/-- C8, amended: for a node count `nSensors + 2` that fits `uint32_t` and a
`simTime` that is a finite double, `main` schedules all `nSensors + 1`
sources and rejects nothing; every scheduled source has start < stop exactly
when `simTime > 10` and the last sensor (if any) has its start, computed in
double arithmetic as `1.0 + (nSensors - 1) * 0.2`, below `simTime`. -/
theorem schedule_start_lt_stop_iff (nSensors : Nat) (simTime : ℚ)
    (hn : nSensors + 2 < 2 ^ 32) (hT : Binary64.round simTime = Dbl.fin simTime) :
    ∃ ws, schedule nSensors simTime = some ws ∧ ws.length = nSensors + 1 ∧
      ((∀ w ∈ ws, Dbl.lt w.start w.stop = true) ↔
        (10 < simTime ∧
          (nSensors = 0 ∨
            Dbl.lt (sensorWindow (nSensors - 1) simTime).start (Dbl.fin simTime) = true))) := by
  refine ⟨(List.range nSensors).map (fun i => sensorWindow i simTime) ++
    [attackerWindow simTime], ?_, by simp, ?_⟩
  · unfold schedule
    rw [if_pos hn]
  simp only [List.mem_append, List.mem_map, List.mem_range, List.mem_singleton]
  constructor
  · intro h
    refine ⟨(attacker_lt_iff simTime hT).mp (h _ (Or.inr rfl)), ?_⟩
    rcases Nat.eq_zero_or_pos nSensors with h0 | hpos
    · exact Or.inl h0
    · exact Or.inr (h (sensorWindow (nSensors - 1) simTime)
        (Or.inl ⟨nSensors - 1, by omega, rfl⟩))
  · rintro ⟨h10, hlast⟩ w (⟨i, hi, rfl⟩ | rfl)
    · rcases hlast with h0 | hlast
      · omega
      · have hi32 : i < 2 ^ 32 := by omega
        have hl32 : nSensors - 1 < 2 ^ 32 := by omega
        rw [sensorWindow_start _ hl32] at hlast
        show Dbl.lt (sensorWindow i simTime).start (Dbl.fin simTime) = true
        rw [sensorWindow_start _ hi32]
        simp only [Dbl.lt, decide_eq_true_eq] at hlast ⊢
        exact lt_of_le_of_lt (sensorStart_mono (by omega)) hlast
    · exact (attacker_lt_iff simTime hT).mpr h10

/-- Witness for C8 amended: the default configuration, 5 sensors and 60 s. -/
theorem schedule_start_lt_stop_iff_witness :
    ∃ ws, schedule 5 60 = some ws ∧ ws.length = 5 + 1 ∧
      ((∀ w ∈ ws, Dbl.lt w.start w.stop = true) ↔
        ((10 : ℚ) < 60 ∧
          (5 = 0 ∨ Dbl.lt (sensorWindow (5 - 1) 60).start (Dbl.fin 60) = true))) :=
  schedule_start_lt_stop_iff 5 60 (by norm_num) (by decide!)

/-! ## C9: divisions with a zero denominator -/

theorem foldl_step_rxPackets_lt (port : Nat) (simTime : ℚ) (stats : List Flow) (a : Totals)
    (ha : a.rxPackets < 2 ^ 64) :
    (stats.foldl (step port simTime) a).rxPackets < 2 ^ 64 := by
  induction stats generalizing a with
  | nil => exact ha
  | cons f fs ih =>
    apply ih
    unfold step
    split
    · exact Nat.mod_lt _ (by norm_num)
    · exact ha

theorem Binary64.rxPackets_lt (stats : List Flow) (port : Nat) (simTime : ℚ) :
    (Binary64.accumulate stats port simTime).rxPackets < 2 ^ 64 := by
  rw [(Binary64.accumulate_ints stats port simTime).2.1]
  exact foldl_step_rxPackets_lt port simTime stats Totals.init (by simp [Totals.init])

/-- Nothing divided by the double `0.0` is finite. -/
theorem Binary64.div_zero_not_finite (x : Dbl) :
    (Binary64.div x (Dbl.fin 0)).isFinite = false := by
  unfold Binary64.div
  cases x with
  | fin a =>
    by_cases ha : a = 0
    · simp [Dbl.div, Binary64.rnd, Dbl.isFinite, ha]
    · simp [Dbl.div, Binary64.rnd, Dbl.isFinite, ha]
  | inf s => simp [Dbl.div, Binary64.rnd, Dbl.isFinite]
  | nan => simp [Dbl.div, Binary64.rnd, Dbl.isFinite]

/-- The rounded quotient of two 64-bit integers with a positive divisor is
finite. -/
theorem Binary64.div_ofNat_finite (n d : ℕ) (hn : n < 2 ^ 64) (hd : 0 < d)
    (hd64 : d < 2 ^ 64) : (Binary64.div (Binary64.ofNat n) (Binary64.ofNat d)).isFinite = true := by
  obtain ⟨hn1, _, hn3⟩ := Binary64.ofNat_rel n hn
  obtain ⟨hd1, hd2, _⟩ := Binary64.ofNat_rel d hd64
  have hD : (1 : ℚ) ≤ d := by exact_mod_cast hd
  have hN : (n : ℚ) < 2 ^ 64 := by exact_mod_cast hn
  set a := Binary64.roundMag (n : ℚ)
  set b := Binary64.roundMag (d : ℚ)
  have ha0 : 0 ≤ a := Binary64.roundMag_nonneg (Nat.cast_nonneg n)
  have hb : (1 / 2 : ℚ) ≤ b := by
    have : (1 / 2 : ℚ) ≤ (1 - 1 / 2 ^ 53) * (d : ℚ) := by
      have h1 : (1 / 2 : ℚ) ≤ (1 - 1 / 2 ^ 53) * 1 := by norm_num
      have h2 : (1 - 1 / 2 ^ 53 : ℚ) * 1 ≤ (1 - 1 / 2 ^ 53) * (d : ℚ) :=
        mul_le_mul_of_nonneg_left hD (by norm_num)
      linarith
    linarith
  have hbpos : 0 < b := by linarith
  have hq : a / b ≤ 2 ^ 66 := by
    rw [div_le_iff₀ hbpos]
    have h1 : a ≤ (1 + 1 / 2 ^ 53) * 2 ^ 64 := by
      have : (1 + 1 / 2 ^ 53 : ℚ) * (n : ℚ) ≤ (1 + 1 / 2 ^ 53) * 2 ^ 64 :=
        mul_le_mul_of_nonneg_left hN.le (by norm_num)
      linarith
    have h2 : (1 + 1 / 2 ^ 53 : ℚ) * 2 ^ 64 ≤ 2 ^ 66 * (1 / 2) := by norm_num
    have h3 : (2 : ℚ) ^ 66 * (1 / 2) ≤ 2 ^ 66 * b :=
      mul_le_mul_of_nonneg_left hb (by positivity)
    linarith
  unfold Binary64.div
  rw [hn1, hd1]
  show (Binary64.rnd (Dbl.div (Dbl.fin a) (Dbl.fin b))).isFinite = true
  simp only [Dbl.div, hbpos.ne', if_false]
  show (Binary64.round (a / b)).isFinite = true
  rw [Binary64.round_eq_fin (div_nonneg ha0 hbpos.le)]
  · rfl
  · have := Binary64.natCast_lt_pow2_1023 (2 ^ 66) (by norm_num)
    push_cast at this
    linarith

/-- C9, as stated, fails: with simulated duration 0 and one flow to the sink
port that received 1280 bytes, the divisions by `simTime` at lines 177 and
189 have a zero denominator and are not guarded; the per-flow and aggregate
throughput are +inf, not 0. -/
theorem aggThroughput_inf_of_simTime_zero :
    (Binary64.computeReport [⟨50000, ⟨20, 20, 1280, 1280, 1, 1⟩⟩] 50000 0).aggThroughput =
        Dbl.inf false ∧
      (Binary64.accumulate [⟨50000, ⟨20, 20, 1280, 1280, 1, 1⟩⟩] 50000 0).perNodeThroughput =
        [Dbl.inf false] ∧
      (Binary64.computeReport [⟨50000, ⟨20, 20, 1280, 1280, 1, 1⟩⟩] 50000 0).aggThroughput ≠
        Dbl.fin 0 := by
  decide!

/-- C9, amended: the divisions by txPackets (pdr, lossRatio) are guarded: the
metric is 0 when txPackets is 0 and a finite value otherwise; the divisions
by rxPackets (avgDelay, avgJitter) are guarded: the metric is 0 when
rxPackets is 0; fairness is 0 for an empty throughput list.  The divisions by
the simulated duration are not guarded: for duration 0 the aggregate
throughput and every per-flow throughput are infinite or NaN. -/
theorem divisions_guarded (stats : List Flow) (port : Nat) (simTime : ℚ) :
    ((Binary64.accumulate stats port simTime).txPackets = 0 →
        (Binary64.computeReport stats port simTime).pdr = Dbl.fin 0 ∧
          (Binary64.computeReport stats port simTime).lossRatio = Dbl.fin 0) ∧
      ((Binary64.accumulate stats port simTime).rxPackets = 0 →
        (Binary64.computeReport stats port simTime).avgDelay = Dbl.fin 0 ∧
          (Binary64.computeReport stats port simTime).avgJitter = Dbl.fin 0) ∧
      ((Binary64.accumulate stats port simTime).perNodeThroughput = [] →
        (Binary64.computeReport stats port simTime).fairness = Dbl.fin 0) ∧
      (Binary64.computeReport stats port simTime).pdr.isFinite = true ∧
      (Binary64.computeReport stats port simTime).lossRatio.isFinite = true ∧
      (simTime = 0 →
        (Binary64.computeReport stats port simTime).aggThroughput.isFinite = false ∧
          ∀ t ∈ (Binary64.accumulate stats port simTime).perNodeThroughput,
            t.isFinite = false) := by
  have htx := Binary64.txPackets_lt stats port simTime
  have hrx := Binary64.rxPackets_lt stats port simTime
  simp only [Binary64.computeReport, Binary64.deriveReport]
  refine ⟨?_, ?_, ?_, ?_, ?_, ?_⟩
  · intro h
    simp [Binary64.pdr, Binary64.lossRatio, h]
  · intro h
    simp [Binary64.avgDelay, Binary64.avgJitter, h]
  · intro h
    simp [Binary64.fairness, h]
  · unfold Binary64.pdr
    split
    · exact Binary64.div_ofNat_finite _ _ hrx (by assumption) htx
    · rfl
  · unfold Binary64.lossRatio
    split
    · exact Binary64.div_ofNat_finite _ _ (Nat.mod_lt _ (by norm_num)) (by assumption) htx
    · rfl
  · intro hT
    subst hT
    refine ⟨Binary64.div_zero_not_finite _, ?_⟩
    intro t ht
    rw [Binary64.accumulate_throughputs, List.mem_map] at ht
    obtain ⟨f, _, rfl⟩ := ht
    exact Binary64.div_zero_not_finite _

/-- Witness for C9 amended: a flow to the sink port that sent 4 packets and
received none, next to a control flow; a run with only the control flow; and
a run of duration 0. -/
theorem divisions_guarded_witness :
    (Binary64.computeReport [⟨50000, ⟨4, 0, 256, 0, 0, 0⟩⟩, ⟨53, ⟨7, 7, 700, 700, 1, 1⟩⟩]
        50000 60).avgDelay = Dbl.fin 0 ∧
      (Binary64.computeReport [⟨53, ⟨7, 7, 700, 700, 1, 1⟩⟩] 50000 60).pdr = Dbl.fin 0 ∧
      (Binary64.computeReport [⟨53, ⟨7, 7, 700, 700, 1, 1⟩⟩] 50000 60).fairness = Dbl.fin 0 ∧
      (Binary64.computeReport [⟨50000, ⟨4, 0, 256, 0, 0, 0⟩⟩] 50000 0).aggThroughput.isFinite
        = false :=
  ⟨((divisions_guarded _ 50000 60).2.1 (by decide!)).1,
    ((divisions_guarded _ 50000 60).1 (by decide!)).1,
    (divisions_guarded _ 50000 60).2.2.1 (by decide!),
    ((divisions_guarded _ 50000 0).2.2.2.2.2 rfl).1⟩

end BusTopology
